import Mathlib

/-!
# Verification of the videotagger repository against its specification

This file gives a shallow embedding, in Lean 4, of the pure logic of the
`videotagger` Go program: the filename metadata codec (`video/validation.go`,
`video/processing.go`), the discovery scanner's filtering logic
(`video/discovery.go`), the duplicate index builder, the worker-count policy
(`cmd/tag.go`, `utils` package) and the duplicate-resolution state machine
(`ui` package, `DuplicatesModel`).

Strings are modelled as `List Char` (wrapped in `String` at the API
boundary); Go's `uint32` values are modelled as `Nat` with explicit bounds;
filesystem effects are modelled by explicit state passing (a list of
existing paths).  Go's regular expressions are modelled by executable
matching functions that mirror the semantics of the concrete patterns used
by the source (all of which are deterministic: every repetition operator in
those patterns is forced, as argued in the comments next to each matcher).
-/

namespace VideoTagger

/-! ## Basic character and list helpers -/

/-- The character class `[a-fA-F0-9]` used by the tagging regex and the
hash-bracket regex in `video/validation.go`. -/
def isHexDigit (c : Char) : Bool :=
  c.isDigit || ('a' ≤ c && c ≤ 'f') || ('A' ≤ c && c ≤ 'F')

/-- Predicate search: `existsSuffix p l` is true iff `p` holds of some suffix of `l`
(including `l` itself and `[]`).  This models the *search* aspect of an
end-anchored regular-expression match: `regexp.MatchString` succeeds iff
the pattern matches starting at some position of the string. -/
def existsSuffix (p : List Char → Bool) : List Char → Bool
  | [] => p []
  | c :: rest => p (c :: rest) || existsSuffix p rest

/-! ## Filename metadata codec (`video/validation.go`)

The tagging regex is
`_\[(\d+x\d+)\]\[(\d+)min\]\[([a-fA-F0-9]{8})\]\.[^.]*$`.
It is anchored at the end of the string and searched from every start
position.  Because every repetition in the pattern is delimited by a
character outside its class (`\d+` by `x`, `]` or `m`; `[a-fA-F0-9]{8}` is
a fixed count; `[^.]*` must run to the end), a match starting at a given
position is unique, so an executable deterministic parser per start
position, combined with `existsSuffix`, is an exact model of
`regexp.MatchString`. -/

/-- Model of `[^.]*$`: the rest of the string contains no dot. -/
def noDot (l : List Char) : Bool := l.all (fun c => !(c == '.'))

/-- Consume `\d+`: returns the remainder after a non-empty maximal digit
run, or `none` if the list does not start with a digit. -/
def afterDigits (l : List Char) : Option (List Char) :=
  if (l.takeWhile Char.isDigit).isEmpty then none
  else some (l.drop (l.takeWhile Char.isDigit).length)

/-- Consume a literal character sequence. -/
def dropLit : List Char → List Char → Option (List Char)
  | [], l => some l
  | _ :: _, [] => none
  | p :: ps, c :: l => if c = p then dropLit ps l else none

/-- Does `_\[(\d+x\d+)\]\[(\d+)min\]\[([a-fA-F0-9]{8})\]\.[^.]*$` match
starting at the head of `l` and extending to its end?  The pattern is
transliterated literal by literal; each `\d+` is consumed maximally,
which is forced because the following pattern character is never a
digit. -/
def taggedAt (l : List Char) : Bool :=
  match dropLit ['_', '['] l with
  | none => false
  | some r1 =>
    match afterDigits r1 with
    | none => false
    | some r2 =>
      match dropLit ['x'] r2 with
      | none => false
      | some r3 =>
        match afterDigits r3 with
        | none => false
        | some r4 =>
          match dropLit [']', '['] r4 with
          | none => false
          | some r5 =>
            match afterDigits r5 with
            | none => false
            | some r6 =>
              match dropLit ['m', 'i', 'n', ']', '['] r6 with
              | none => false
              | some r7 =>
                ((r7.take 8).length == 8 && (r7.take 8).all isHexDigit) &&
                (match dropLit [']', '.'] (r7.drop 8) with
                 | none => false
                 | some r8 => noDot r8)

/-- Function `IsProcessed` from `video/validation.go`: the tagging regex matches
somewhere in the string (necessarily as an end-anchored suffix). -/
def isProcessed (s : String) : Bool := existsSuffix taggedAt s.data

/-- Model of `^\d+x\d+$` — the exact-match requirement on the resolution component
(spec §4.1): digits, one `x`, digits, nothing else. -/
def resolutionOk (l : List Char) : Bool :=
  match afterDigits l with
  | none => false
  | some r =>
    match dropLit ['x'] r with
    | none => false
    | some r2 =>
      match afterDigits r2 with
      | none => false
      | some r3 => r3.isEmpty

/-- Does `\[([a-fA-F0-9]{8})\]` match at the head of `l`? -/
def hexBracketHead (l : List Char) : Bool :=
  match dropLit ['['] l with
  | none => false
  | some r =>
    ((r.take 8).length == 8 && (r.take 8).all isHexDigit) &&
    (match dropLit [']'] (r.drop 8) with
     | none => false
     | some _ => true)

/-- All non-overlapping matches of `\[([a-fA-F0-9]{8})\]`, scanned left to
right, capture groups only — the model of
`hashRegex.FindAllStringSubmatch(filename, -1)` in
`ExtractHashFromFilename`.  (Two matches of this pattern can never
overlap, since the interior of a match contains no `[`.) -/
def findHashBracketsAux (fuel : Nat) (l : List Char) : List (List Char) :=
  match fuel, l with
  | 0, _ => []
  | _ + 1, [] => []
  | f + 1, c :: rest =>
    if hexBracketHead (c :: rest) then
      (rest.take 8) :: findHashBracketsAux f (rest.drop 9)
    else
      findHashBracketsAux f rest

/-- Runs `findHashBracketsAux` with enough fuel (one unit per character is
enough, since every step discards at least one character). -/
def findHashBrackets (l : List Char) : List (List Char) :=
  findHashBracketsAux l.length l

/-- Function `ExtractHashFromFilename` from `video/validation.go`: `none` unless
the tagging regex matches; otherwise the capture of the *last*
hex-bracket match (`none` if there is no match at all, mirroring the
`len(matches) == 0` branch). -/
def extractHashFromFilename (s : String) : Option String :=
  if existsSuffix taggedAt s.data then
    match (findHashBrackets s.data).getLast? with
    | some h => some (String.mk h)
    | none => none
  else none

/-! ## `filepath.Ext`, `filepath.Base` and the encoder -/

/-- Helper for `filepath.Ext`: scan the reversed path; `acc` holds the
characters already passed, in forward order.  Stops at the first `.`
(returning the extension) or at a path separator / the start of the
string (returning `[]`), exactly like Go's loop
`for i := len(path)-1; i >= 0 && !os.IsPathSeparator(path[i]); i--`. -/
def extAcc : List Char → List Char → List Char
  | [], _ => []
  | c :: rest, acc =>
    if c = '/' then []
    else if c = '.' then '.' :: acc
    else extAcc rest (c :: acc)

/-- Model of `filepath.Ext`: the suffix beginning at the final dot in the final
element of the path (empty if there is none). -/
def filepathExt (s : String) : String := String.mk (extAcc s.data.reverse [])

/-- Helper for `filepath.Base` restricted to the paths this program feeds
it (non-empty, no trailing separator): the part after the last `/`. -/
def baseAcc : List Char → List Char → List Char
  | [], acc => acc
  | c :: rest, acc =>
    if c = '/' then acc
    else baseAcc rest (c :: acc)

/-- Model of `filepath.Base` for ordinary file paths. -/
def filepathBase (s : String) : String := String.mk (baseAcc s.data.reverse [])

/-- Decimal digits of `n`, most significant first — the rendering of a
non-negative integer by `fmt.Sprintf` (`%.0f` renders the rounded
duration this way; the model quantifies over the rounded value). -/
def natDigitsAux (fuel : Nat) (n : Nat) : List Char :=
  match fuel with
  | 0 => []
  | f + 1 =>
    if n < 10 then [Char.ofNat (48 + n)]
    else natDigitsAux f (n / 10) ++ [Char.ofNat (48 + n % 10)]

/-- Runs `natDigitsAux` with enough fuel (`n / 10 < n` for `n ≥ 10`, so `n + 1`
units always suffice). -/
def natToDigits (n : Nat) : List Char := natDigitsAux (n + 1) n

/-- One upper-case hexadecimal digit, as produced by `%X`. -/
def hexChar (n : Nat) : Char :=
  if n < 10 then Char.ofNat (48 + n) else Char.ofNat (55 + n)

/-- Format `%08X` applied to a `uint32` value: exactly eight upper-case hex
digits, zero-padded. -/
def toHex8 (n : Nat) : List Char :=
  [hexChar (n / 16 ^ 7 % 16), hexChar (n / 16 ^ 6 % 16),
   hexChar (n / 16 ^ 5 % 16), hexChar (n / 16 ^ 4 % 16),
   hexChar (n / 16 ^ 3 % 16), hexChar (n / 16 ^ 2 % 16),
   hexChar (n / 16 % 16), hexChar (n % 16)]

/-- Structure `VideoMetadata` from the `video` package; the float64 duration is
modelled by its `%.0f`-rounded non-negative value. -/
structure VideoMetadata where
  resolution : String
  durationMins : Nat
deriving Repr, DecidableEq

/-- Function `generateTaggedFilename` from `video/processing.go`:
strip the extension, append `_[W x H][D min][HHHHHHHH]`, reattach the
extension. -/
def generateTaggedFilename (originalPath : String) (metadata : VideoMetadata)
    (crc : Nat) : String :=
  let ext := (filepathExt originalPath).data
  let baseName := originalPath.data.take (originalPath.data.length - ext.length)
  String.mk
    (baseName ++ '_' :: '[' :: metadata.resolution.data ++ ']' :: '[' ::
      natToDigits metadata.durationMins ++ 'm' :: 'i' :: 'n' :: ']' :: '[' ::
      toHex8 crc ++ ']' :: ext)

/-- The fixed, case-insensitive set of recognized container extensions
(`IsVideoFile` in `video/validation.go`). -/
def videoExtensions : List (List Char) :=
  [".mp4".data, ".webm".data, ".mov".data, ".flv".data,
   ".mkv".data, ".avi".data, ".wmv".data, ".mpg".data]

/-- Function `IsVideoFile`: the lower-cased `filepath.Ext` of the path is in the
recognized set. -/
def isVideoFile (s : String) : Bool :=
  videoExtensions.any (fun e => (filepathExt s).data.map Char.toLower == e)

/-! ## Specification-side characterizations of the codec -/

/-- An eight-character run of hex digits. -/
def HexRun8 (h : List Char) : Prop := h.length = 8 ∧ h.all isHexDigit = true

/-- Spec-side reading of the tagging grammar (spec §4.1/§6): the string
ends, immediately before a dot-free extension tail, with
`_[W x H][D min][HHHHHHHH].`. -/
def TaggedDecomp (l : List Char) : Prop :=
  ∃ pre w h d hx tail,
    l = pre ++ '_' :: '[' ::
      (w ++ 'x' :: (h ++ ']' :: '[' ::
        (d ++ 'm' :: 'i' :: 'n' :: ']' :: '[' :: (hx ++ ']' :: '.' :: tail)))) ∧
    w ≠ [] ∧ w.all Char.isDigit = true ∧
    h ≠ [] ∧ h.all Char.isDigit = true ∧
    d ≠ [] ∧ d.all Char.isDigit = true ∧
    HexRun8 hx ∧ noDot tail = true

/-- Means that `l` contains no `[HHHHHHHH]` hex bracket at all. -/
def NoHexB (l : List Char) : Prop :=
  ¬ ∃ a h b, l = a ++ '[' :: (h ++ ']' :: b) ∧ HexRun8 h

/-- Means that `h` is the capture of the *last* hex bracket of `l`: it occurs as a
hex bracket, and nothing after it is one. -/
def IsLastHexBracket (l h : List Char) : Prop :=
  ∃ u v, l = u ++ '[' :: (h ++ ']' :: v) ∧ HexRun8 h ∧ NoHexB v

/-- Case-insensitive hash comparison (spec §4.1). -/
def eqCaseInsensitive (a b : List Char) : Bool :=
  a.map Char.toLower == b.map Char.toLower

/-! ## Duplicate index builder (`FindDuplicatesByHash`, C7)

The directory scan itself is I/O; the builder is modelled as a function
of the list of file paths the scan produced.  The Go `map[string][]string`
with per-key append is modelled as an association list in key-insertion
order (the claims are order-insensitive). -/

/-- Append `p` to the entry of `h`, creating it if absent. -/
def addToIndex : List (String × List String) → String → String →
    List (String × List String)
  | [], h, p => [(h, [p])]
  | (k, ps) :: rest, h, p =>
    if k = h then (k, ps ++ [p]) :: rest else (k, ps) :: addToIndex rest h p

/-- The part of `FindDuplicatesByHash` after the scan: extract a hash
from each file's base name (skipping files where extraction fails), then
keep only hashes with more than one file. -/
def findDuplicatesByHash (files : List String) : List (String × List String) :=
  (files.foldl (fun idx path =>
      match extractHashFromFilename (filepathBase path) with
      | some h => addToIndex idx h path
      | none => idx) []).filter (fun e => 1 < e.2.length)

/-! ## Discovery scanner (`video/discovery.go`, C5)

The directory enumeration is I/O; both strategies are modelled as
functions of the same directory listing (the regular files under the
root).  The external `fd` enumerator is modelled per spec §6 as
returning exactly the files whose *filename* matches the given pattern;
the Go code then post-filters its output lines. -/

/-- Matcher for `fd`'s tagged-file pattern `_\[.*\]\[.*min\]\[[a-fA-F0-9]{8}\]\.`
matched at a fixed start position: each `.*` is an arbitrary gap
(filenames contain no newline), realized by searching for the next
literal. -/
def fdTagPatAt (l : List Char) : Bool :=
  match dropLit ['_', '['] l with
  | none => false
  | some r1 =>
    existsSuffix (fun s1 =>
      match dropLit [']', '['] s1 with
      | none => false
      | some r2 =>
        existsSuffix (fun s2 =>
          match dropLit ['m', 'i', 'n', ']', '['] s2 with
          | none => false
          | some r3 =>
            ((r3.take 8).length == 8 && (r3.take 8).all isHexDigit) &&
            (match dropLit [']', '.'] (r3.drop 8) with
             | none => false
             | some _ => true)) r2) r1

/-- Search the `fd` tagged pattern anywhere in a filename. -/
def fdTaggedMatch (name : String) : Bool := existsSuffix fdTagPatAt name.data

/-- Function `findTaggedFilesWithFd`: `fd` output (files whose name matches the
tagged pattern) post-filtered by `line != "" && IsVideoFile(line)` —
note: *not* by `IsProcessed`. -/
def findTaggedFilesWithFd (listing : List String) : List String :=
  (listing.filter (fun p => fdTaggedMatch (filepathBase p))).filter
    (fun line => !(line == "") && isVideoFile line)

/-- Function `findTaggedFilesWithWalkDir`: the portable walk keeps regular files
that are video files and `IsProcessed`. -/
def findTaggedFilesWithWalkDir (listing : List String) : List String :=
  listing.filter (fun p => isVideoFile p && isProcessed p)

/-- One alternative of `fd`'s extension pattern
`\.mp4|\.webm|\.mov|\.flv|\.mkv|\.avi|\.wmv|\.mpg` matched
case-insensitively at a fixed position. -/
def fdExtPatAt (l : List Char) : Bool :=
  videoExtensions.any (fun e => (l.take e.length).map Char.toLower == e)

/-- Search the `fd` extension pattern anywhere in a filename. -/
def fdExtMatch (name : String) : Bool := existsSuffix fdExtPatAt name.data

/-- Function `findUnprocessedFilesWithFd`: `fd` output post-filtered by
`line != "" && IsVideoFile(line) && !IsProcessed(line)`. -/
def findUnprocessedFilesWithFd (listing : List String) : List String :=
  (listing.filter (fun p => fdExtMatch (filepathBase p))).filter
    (fun line => !(line == "") && (isVideoFile line && !(isProcessed line)))

/-- Function `findUnprocessedFilesWithWalkDir`. -/
def findUnprocessedFilesWithWalkDir (listing : List String) : List String :=
  listing.filter (fun p => isVideoFile p && !(isProcessed p))

/-! ## Worker-count policy (`cmd/tag.go` and `utils`, C6) -/

/-- Does `l` start with the literal `pat`? -/
def strStarts (pat l : List Char) : Bool := (dropLit pat l).isSome

/-- Model of `strings.Contains`: does `pat` occur anywhere in `l`? -/
def containsSeq (pat l : List Char) : Bool := existsSuffix (strStarts pat) l

/-- The network mount-point prefixes checked by `IsNetworkDrive`. -/
def networkMountPoints : List (List Char) :=
  ["/mnt/".data, "/media/".data, "/Volumes/".data]

/-- The filesystem-type indicators checked by `IsNetworkDrive`. -/
def networkIndicators : List (List Char) :=
  ["nfs".data, "cifs".data, "smb".data, "webdav".data, "ftp".data, "sftp".data]

/-- Function `IsNetworkDrive` (utils package).  `filepath.Abs` consults the
process working directory (an effect outside the embedding), so it is
passed as an oracle; `none` models the error return, on which the
function answers `false`. -/
def isNetworkDrive (abs : String → Option String) (filePath : String) : Bool :=
  if strStarts "//".data filePath.data || strStarts "\\\\".data filePath.data then
    true
  else
    match abs filePath with
    | none => false
    | some absPath =>
      networkMountPoints.any (fun pre => strStarts pre absPath.data) ||
      networkIndicators.any (fun ind =>
        containsSeq ind (absPath.data.map Char.toLower))

/-- The worker-count computation at the top of `TagCmd.Run`
(`cmd/tag.go`): an explicit `--workers` override is kept as-is when
positive; otherwise one worker if any input file is on a network drive,
else the number of logical CPUs. -/
def effectiveWorkerCount (abs : String → Option String) (cmdWorkers : Int)
    (files : List String) (numCPU : Int) : Int :=
  if cmdWorkers ≤ 0 then
    if files.any (fun f => isNetworkDrive abs f) then 1 else numCPU
  else cmdWorkers

/-! ## Duplicate-resolution state machine (`ui` package, C1/C2/C9)

`DuplicatesModel` keeps the logic-bearing fields of the Go struct; the
render-only fields (`width`, `height`, `showHelp`) are omitted.
Filesystem deletion (`os.Remove`) is modelled by explicit state passing
over the list of existing paths. -/

structure DuplicateGroup where
  hash : String
  files : List String
  selected : List Bool
  deletedFiles : List String
deriving Repr, DecidableEq

instance : Inhabited DuplicateGroup := ⟨⟨"", [], [], []⟩⟩

structure DuplicatesModel where
  groups : List DuplicateGroup
  currentGroup : Nat
  currentFile : Nat
  confirmingDeletion : Bool
  pendingDeletion : List String
  quitting : Bool
deriving Repr, DecidableEq

structure DeletionCompleteMsg where
  filePath : String
  success : Bool
  error : Option String
deriving Repr, DecidableEq

/-- The files of `g` marked for deletion, in order (`handleDeleteCommand`
reads `group.Files[i]` for each selected index `i`; the zip is faithful
under the `len(files) == len(selected)` invariant). -/
def selectedIn (g : DuplicateGroup) : List String :=
  (g.files.zip g.selected).filterMap (fun fs => if fs.2 then some fs.1 else none)

/-- All selected files across all groups, group order then file order. -/
def allSelectedFiles (m : DuplicatesModel) : List String :=
  (m.groups.map selectedIn).flatten

/-- Function `handleDeleteCommand`: collect selected files from all groups; no-op
when nothing is selected, otherwise stage the batch and ask for
confirmation. -/
def handleDeleteCommand (m : DuplicatesModel) : DuplicatesModel :=
  if allSelectedFiles m = [] then m
  else { m with pendingDeletion := allSelectedFiles m, confirmingDeletion := true }

/-- Model of `os.Remove`: fails iff the path does not exist, otherwise removes it. -/
def osRemove (fs : List String) (p : String) : Option (List String) :=
  if p ∈ fs then some (fs.erase p) else none

/-- The command closure built by `executeDeleteCommand`, run against a
filesystem state: delete each pending path in order; stop at the first
failure and report it; report the success sentinel (empty path) if all
removals succeed. -/
def executeDeleteCommand (fs : List String) (pending : List String) :
    List String × DeletionCompleteMsg :=
  match pending with
  | [] => (fs, ⟨"", true, none⟩)
  | p :: rest =>
    match osRemove fs p with
    | none => (fs, ⟨p, false, some ("remove " ++ p)⟩)
    | some fs' => executeDeleteCommand fs' rest

/-- The per-group file loop of `handleDeletionComplete`: split the
(file, selected) pairs into the kept pairs and the deleted files (those
appearing in the pending batch), both in file order. -/
def siftPairs (pending : List String) :
    List (String × Bool) → List (String × Bool) × List String
  | [] => ([], [])
  | (f, s) :: rest =>
    let r := siftPairs pending rest
    if pending.contains f then (r.1, f :: r.2) else ((f, s) :: r.1, r.2)

/-- The effect of `handleDeletionComplete` on one group: drop the
deleted files and their selection slots, append the deleted files to
`deletedFiles`. -/
def siftGroup (pending : List String) (g : DuplicateGroup) : DuplicateGroup :=
  { hash := g.hash,
    files := (siftPairs pending (g.files.zip g.selected)).1.map Prod.fst,
    selected := (siftPairs pending (g.files.zip g.selected)).1.map Prod.snd,
    deletedFiles := g.deletedFiles ++ (siftPairs pending (g.files.zip g.selected)).2 }

/-- Indices of groups left with at most one file (collected in ascending
group order, as in the Go loop). -/
def groupsToRemove (gs : List DuplicateGroup) : List Nat :=
  (List.range gs.length).filter (fun i => (gs.getD i default).files.length ≤ 1)

/-- The group-removal loop of `handleDeletionComplete`: remove the given
indices (the Go code iterates `groupsToRemove` in reverse), decrementing
the cursor for each removed index at or before it while it is
positive. -/
def removeLoop : List Nat → List DuplicateGroup × Nat → List DuplicateGroup × Nat
  | [], st => st
  | i :: rest, (gs, cg) =>
    removeLoop rest
      (gs.eraseIdx i, if i ≤ cg then (if 0 < cg then cg - 1 else cg) else cg)

/-- All groups after dropping the executed batch from each. -/
def siftedGroups (m : DuplicatesModel) : List DuplicateGroup :=
  m.groups.map (siftGroup m.pendingDeletion)

/-- The groups left after the removal loop. -/
def newGroups (m : DuplicatesModel) : List DuplicateGroup :=
  (removeLoop (groupsToRemove (siftedGroups m)).reverse
    (siftedGroups m, m.currentGroup)).1

/-- The group cursor after the removal loop (before the final clamp). -/
def newCursor (m : DuplicatesModel) : Nat :=
  (removeLoop (groupsToRemove (siftedGroups m)).reverse
    (siftedGroups m, m.currentGroup)).2

/-- The final clamp `if m.currentGroup >= len(m.groups)`. -/
def clampedCursor (m : DuplicatesModel) : Nat :=
  if (newGroups m).length ≤ newCursor m then (newGroups m).length - 1
  else newCursor m

/-- The file-cursor fix-up (`len-1` when out of range, floored at 0 —
`Nat` subtraction folds the two Go steps into one). -/
def clampedFile (m : DuplicatesModel) : Nat :=
  if ((newGroups m).getD (clampedCursor m) default).files.length ≤ m.currentFile
  then ((newGroups m).getD (clampedCursor m) default).files.length - 1
  else m.currentFile

/-- The success-sentinel branch of `handleDeletionComplete`. -/
def reindexAfterDeletion (m : DuplicatesModel) : DuplicatesModel :=
  if (newGroups m).isEmpty then
    { m with groups := newGroups m, currentGroup := newCursor m,
             quitting := true, pendingDeletion := [] }
  else
    { m with groups := newGroups m, currentGroup := clampedCursor m,
             currentFile := clampedFile m, pendingDeletion := [] }

/-- Function `handleDeletionComplete`: on the success sentinel, drop the executed
batch from every group, remove collapsed groups, fix up both cursors and
quit if nothing remains; on any other completion only clear the pending
batch. -/
def handleDeletionComplete (m : DuplicatesModel) (msg : DeletionCompleteMsg) :
    DuplicatesModel :=
  if msg.success && msg.filePath == "" then reindexAfterDeletion m
  else { m with pendingDeletion := [] }

/-- A state with one group and nothing selected. -/
def sampleModelNoSelection : DuplicatesModel :=
  { groups := [⟨"h1", ["a", "b"], [false, false], []⟩],
    currentGroup := 0, currentFile := 0, confirmingDeletion := false,
    pendingDeletion := [], quitting := false }

/-- The group component of `removeLoop`, in isolation. -/
def eraseFold : List Nat → List DuplicateGroup → List DuplicateGroup
  | [], gs => gs
  | i :: rest, gs => eraseFold rest (gs.eraseIdx i)

/-- The cursor component of `removeLoop`, in isolation. -/
def cgFold : List Nat → Nat → Nat
  | [], c => c
  | i :: rest, c =>
    cgFold rest (if i ≤ c then (if 0 < c then c - 1 else c) else c)

/-- A state matching the spec's cross-group example: `G1 = {a,b,c}`,
`G2 = {d,e}`, with `b` and `d` staged for deletion. -/
def sampleModelCrossGroup : DuplicatesModel :=
  { groups :=
      [⟨"h1", ["a", "b", "c"], [false, true, false], []⟩,
       ⟨"h2", ["d", "e"], [true, false], []⟩],
    currentGroup := 1, currentFile := 1, confirmingDeletion := false,
    pendingDeletion := ["b", "d"], quitting := false }

/-! ## Single-file processing (`video/processing.go`, C10)

The filesystem and the probing collaborator are modelled as explicit
state: a world of existing regular files and directories plus oracles
for the two probe calls and the hash.  `os.Stat`'s `FileInfo` result is
modelled as `Option Bool` (`none` = the nil info returned along with an
error; the `Bool` is `IsDir`). -/

structure ProcessingResult where
  originalPath : String
  newPath : Option String
  metadata : Option VideoMetadata
  crc32 : Option Nat
  wasSkipped : Bool
  skipReason : Option String
  wasRenamed : Bool
  error : Option String
deriving Repr, DecidableEq

structure World where
  files : List String
  dirs : List String
  probeRes : String → Option String
  probeDur : String → Option Nat
  fileHash : String → Option Nat

/-- Model of `os.Stat`: `some isDir` when the path exists, `none` (nil info plus
error) otherwise. -/
def osStat (w : World) (p : String) : Option Bool :=
  if p ∈ w.dirs then some true else if p ∈ w.files then some false else none

/-- Model of `os.Rename` on the world. -/
def osRename (w : World) (oldPath newPath : String) : Option World :=
  if oldPath ∈ w.files then
    some { w with files := (w.files.erase oldPath) ++ [newPath] }
  else none

/-- A `ProcessingResult` with only `OriginalPath` set. -/
def emptyResult (p : String) : ProcessingResult :=
  ⟨p, none, none, none, false, none, false, none⟩

/-- Function `processVideoFileCore`: validate, probe, hash, rename — returning
the updated world and the structured result, mirroring the Go control
flow step by step. -/
def processVideoFileCore (w : World) (videoFile : String) :
    World × ProcessingResult :=
  match osStat w videoFile with
  | none => (w, { emptyResult videoFile with error := some "stat failed" })
  | some isDir =>
    if isDir then
      (w, { emptyResult videoFile with
              wasSkipped := true, skipReason := some "is a directory" })
    else if !(isVideoFile videoFile) then
      (w, { emptyResult videoFile with
              wasSkipped := true, skipReason := some "is not a video file" })
    else if isProcessed videoFile then
      (w, { emptyResult videoFile with
              wasSkipped := true, skipReason := some "already processed" })
    else
      match w.probeRes videoFile with
      | none => (w, { emptyResult videoFile with
                        error := some "failed to get resolution" })
      | some resolution =>
        match w.probeDur videoFile with
        | none => (w, { emptyResult videoFile with
                          error := some "failed to get duration" })
        | some durationMins =>
          match w.fileHash videoFile with
          | none => (w, { emptyResult videoFile with
                            error := some "failed to calculate hash" })
          | some crc =>
            match osRename w videoFile
                (generateTaggedFilename videoFile
                  ⟨resolution, durationMins⟩ crc) with
            | none =>
              (w, { emptyResult videoFile with
                      metadata := some ⟨resolution, durationMins⟩,
                      crc32 := some crc,
                      newPath := some (generateTaggedFilename videoFile
                        ⟨resolution, durationMins⟩ crc),
                      error := some "rename failed" })
            | some wNext =>
              (wNext, { emptyResult videoFile with
                          metadata := some ⟨resolution, durationMins⟩,
                          crc32 := some crc,
                          newPath := some (generateTaggedFilename videoFile
                            ⟨resolution, durationMins⟩ crc),
                          wasRenamed := true })

/-- The `FileInfo` that `ProcessVideoFile` dereferences after a
successful (non-error, non-skip) core run: it re-stats the *original*
path, discarding the error (`fileInfo, _ := os.Stat(videoFile)`), and
immediately calls `fileInfo.Size()`.  The outer `some` means that point
in the code is reached; the inner value is the `FileInfo`, with `none`
standing for the nil info whose dereference panics. -/
def processVideoFileStat (w : World) (videoFile : String) :
    Option (Option Bool) :=
  if (processVideoFileCore w videoFile).2.error = none ∧
     (processVideoFileCore w videoFile).2.wasSkipped = false then
    some (osStat (processVideoFileCore w videoFile).1 videoFile)
  else none

/-- A world where `video.mp4` exists and both probes and the hash
succeed — i.e. any ordinary successful tagging run. -/
def sampleWorld : World :=
  { files := ["video.mp4"], dirs := [],
    probeRes := fun p => if p = "video.mp4" then some "1920x1080" else none,
    probeDur := fun p => if p = "video.mp4" then some 30 else none,
    fileHash := fun p => if p = "video.mp4" then some 0xDEADBEEF else none }

/-! ## Theorems -/

theorem existsSuffix_iff (p : List Char → Bool) (l : List Char) :
    existsSuffix p l = true ↔ ∃ u v, l = u ++ v ∧ p v = true := by
  induction l with
  | nil =>
    simp only [existsSuffix]
    constructor
    · intro h
      exact ⟨[], [], rfl, h⟩
    · rintro ⟨u, v, huv, hv⟩
      rcases List.append_eq_nil.mp huv.symm with ⟨rfl, rfl⟩
      exact hv
  | cons c rest ih =>
    simp only [existsSuffix, Bool.or_eq_true]
    constructor
    · rintro (h | h)
      · exact ⟨[], c :: rest, rfl, h⟩
      · rcases ih.mp h with ⟨u, v, huv, hv⟩
        exact ⟨c :: u, v, by simp [huv], hv⟩
    · rintro ⟨u, v, huv, hv⟩
      cases u with
      | nil => exact Or.inl (by simpa using huv ▸ hv)
      | cons a u' =>
        right
        refine ih.mpr ⟨u', v, ?_, hv⟩
        simpa using congrArg List.tail huv

/-- If a run of characters all satisfying `p` is followed by a list whose
head falsifies `p`, then `takeWhile p` returns exactly the run. -/
theorem takeWhile_run (p : Char → Bool) (w rest : List Char)
    (hw : w.all p = true)
    (hr : ∀ c, rest.head? = some c → p c = false) :
    (w ++ rest).takeWhile p = w := by
  induction w with
  | nil =>
    cases rest with
    | nil => rfl
    | cons c r =>
      simp only [List.nil_append, List.takeWhile]
      rw [hr c rfl]
  | cons a w' ih =>
    simp only [List.all_cons, Bool.and_eq_true] at hw
    simp only [List.cons_append, List.takeWhile, hw.1]
    exact congrArg (List.cons a) (ih hw.2)

/-- Companion of `takeWhile_run` for the dropped part. -/
theorem drop_run (w rest : List Char) :
    (w ++ rest).drop w.length = rest :=
  List.drop_left w rest

theorem drop_len_takeWhile (p : Char → Bool) (l : List Char) :
    l.drop (l.takeWhile p).length = l.dropWhile p := by
  induction l with
  | nil => rfl
  | cons a t ih =>
    by_cases h : p a <;>
      simp [List.takeWhile_cons, List.dropWhile_cons, h, ih]

theorem afterDigits_inv (l rest : List Char) (h : afterDigits l = some rest) :
    ∃ d, l = d ++ rest ∧ d ≠ [] ∧ d.all Char.isDigit = true := by
  unfold afterDigits at h
  split_ifs at h with hemp
  have hrest : rest = l.drop (l.takeWhile Char.isDigit).length :=
    (Option.some.inj h).symm
  subst hrest
  refine ⟨l.takeWhile Char.isDigit, ?_, ?_, ?_⟩
  · rw [drop_len_takeWhile, List.takeWhile_append_dropWhile]
  · intro hnil
    rw [hnil] at hemp
    exact hemp rfl
  · rw [List.all_eq_true]
    intro c hc
    exact List.mem_takeWhile_imp hc

theorem afterDigits_run (w rest : List Char) (hw0 : w ≠ [])
    (hw : w.all Char.isDigit = true)
    (hr : ∀ c, rest.head? = some c → c.isDigit = false) :
    afterDigits (w ++ rest) = some rest := by
  unfold afterDigits
  rw [takeWhile_run Char.isDigit w rest hw hr]
  cases w with
  | nil => exact absurd rfl hw0
  | cons a w' => simp [drop_run]

theorem dropLit_eq_some (pat l r : List Char) :
    dropLit pat l = some r ↔ l = pat ++ r := by
  induction pat generalizing l with
  | nil => simp [dropLit]
  | cons p ps ih =>
    cases l with
    | nil => simp [dropLit]
    | cons c t =>
      by_cases hc : c = p
      · subst hc
        simp [dropLit, ih]
      · simp [dropLit, hc]

/-- Inversion of a successful anchored match: the matched suffix has the
grammar's shape. -/
theorem taggedAt_inv (v : List Char) (ht : taggedAt v = true) :
    ∃ w h d hx tail,
      v = '_' :: '[' ::
        (w ++ 'x' :: (h ++ ']' :: '[' ::
          (d ++ 'm' :: 'i' :: 'n' :: ']' :: '[' :: (hx ++ ']' :: '.' :: tail)))) ∧
      w ≠ [] ∧ w.all Char.isDigit = true ∧
      h ≠ [] ∧ h.all Char.isDigit = true ∧
      d ≠ [] ∧ d.all Char.isDigit = true ∧
      HexRun8 hx ∧ noDot tail = true := by
  unfold taggedAt at ht
  split at ht
  · exact absurd ht (by simp)
  rename_i r1 h1
  split at ht
  · exact absurd ht (by simp)
  rename_i r2 h2
  split at ht
  · exact absurd ht (by simp)
  rename_i r3 h3
  split at ht
  · exact absurd ht (by simp)
  rename_i r4 h4
  split at ht
  · exact absurd ht (by simp)
  rename_i r5 h5
  split at ht
  · exact absurd ht (by simp)
  rename_i r6 h6
  split at ht
  · exact absurd ht (by simp)
  rename_i r7 h7
  simp only [Bool.and_eq_true, beq_iff_eq] at ht
  obtain ⟨⟨hlen, hhex⟩, htail⟩ := ht
  split at htail
  · exact absurd htail (by simp)
  rename_i r8 h8
  obtain ⟨d2, hd2, hd2n, hd2d⟩ := afterDigits_inv _ _ h2
  obtain ⟨d4, hd4, hd4n, hd4d⟩ := afterDigits_inv _ _ h4
  obtain ⟨d6, hd6, hd6n, hd6d⟩ := afterDigits_inv _ _ h6
  refine ⟨d2, d4, d6, r7.take 8, r8, ?_, hd2n, hd2d, hd4n, hd4d,
    hd6n, hd6d, ⟨hlen, hhex⟩, htail⟩
  have hv := (dropLit_eq_some _ _ _).mp h1
  have h3' := (dropLit_eq_some _ _ _).mp h3
  have h5' := (dropLit_eq_some _ _ _).mp h5
  have h7' := (dropLit_eq_some _ _ _).mp h7
  have h8' := (dropLit_eq_some _ _ _).mp h8
  have hr7 : r7 = r7.take 8 ++ ']' :: '.' :: r8 := by
    conv_lhs => rw [← List.take_append_drop 8 r7]
    rw [h8']
    rfl
  rw [hv, hd2, h3', hd4, h5', hd6, h7', ← hr7]
  simp [List.append_assoc]

/-- Construction: a string of the grammar's shape is accepted by the
anchored matcher. -/
theorem taggedAt_build (w h d hx tail : List Char)
    (hw0 : w ≠ []) (hwd : w.all Char.isDigit = true)
    (hh0 : h ≠ []) (hhd : h.all Char.isDigit = true)
    (hd0 : d ≠ []) (hdd : d.all Char.isDigit = true)
    (hx8 : HexRun8 hx) (htl : noDot tail = true) :
    taggedAt ('_' :: '[' ::
      (w ++ 'x' :: (h ++ ']' :: '[' ::
        (d ++ 'm' :: 'i' :: 'n' :: ']' :: '[' :: (hx ++ ']' :: '.' :: tail))))) = true := by
  have e1 : dropLit ['_', '['] ('_' :: '[' ::
      (w ++ 'x' :: (h ++ ']' :: '[' ::
        (d ++ 'm' :: 'i' :: 'n' :: ']' :: '[' :: (hx ++ ']' :: '.' :: tail))))) =
      some (w ++ 'x' :: (h ++ ']' :: '[' ::
        (d ++ 'm' :: 'i' :: 'n' :: ']' :: '[' :: (hx ++ ']' :: '.' :: tail)))) :=
    (dropLit_eq_some _ _ _).mpr rfl
  have e2 : afterDigits (w ++ 'x' :: (h ++ ']' :: '[' ::
      (d ++ 'm' :: 'i' :: 'n' :: ']' :: '[' :: (hx ++ ']' :: '.' :: tail)))) =
      some ('x' :: (h ++ ']' :: '[' ::
        (d ++ 'm' :: 'i' :: 'n' :: ']' :: '[' :: (hx ++ ']' :: '.' :: tail)))) :=
    afterDigits_run _ _ hw0 hwd (by intro c hc; cases hc; decide)
  have e3 : dropLit ['x'] ('x' :: (h ++ ']' :: '[' ::
      (d ++ 'm' :: 'i' :: 'n' :: ']' :: '[' :: (hx ++ ']' :: '.' :: tail)))) =
      some (h ++ ']' :: '[' ::
        (d ++ 'm' :: 'i' :: 'n' :: ']' :: '[' :: (hx ++ ']' :: '.' :: tail))) :=
    (dropLit_eq_some _ _ _).mpr rfl
  have e4 : afterDigits (h ++ ']' :: '[' ::
      (d ++ 'm' :: 'i' :: 'n' :: ']' :: '[' :: (hx ++ ']' :: '.' :: tail))) =
      some (']' :: '[' ::
        (d ++ 'm' :: 'i' :: 'n' :: ']' :: '[' :: (hx ++ ']' :: '.' :: tail))) :=
    afterDigits_run _ _ hh0 hhd (by intro c hc; cases hc; decide)
  have e5 : dropLit [']', '['] (']' :: '[' ::
      (d ++ 'm' :: 'i' :: 'n' :: ']' :: '[' :: (hx ++ ']' :: '.' :: tail))) =
      some (d ++ 'm' :: 'i' :: 'n' :: ']' :: '[' :: (hx ++ ']' :: '.' :: tail)) :=
    (dropLit_eq_some _ _ _).mpr rfl
  have e6 : afterDigits (d ++ 'm' :: 'i' :: 'n' :: ']' :: '[' ::
      (hx ++ ']' :: '.' :: tail)) =
      some ('m' :: 'i' :: 'n' :: ']' :: '[' :: (hx ++ ']' :: '.' :: tail)) :=
    afterDigits_run _ _ hd0 hdd (by intro c hc; cases hc; decide)
  have e7 : dropLit ['m', 'i', 'n', ']', '['] ('m' :: 'i' :: 'n' :: ']' :: '[' ::
      (hx ++ ']' :: '.' :: tail)) = some (hx ++ ']' :: '.' :: tail) :=
    (dropLit_eq_some _ _ _).mpr rfl
  have ht8 : (hx ++ ']' :: '.' :: tail).take 8 = hx := List.take_left' hx8.1
  have hdr8 : (hx ++ ']' :: '.' :: tail).drop 8 = ']' :: '.' :: tail :=
    List.drop_left' hx8.1
  have e8 : dropLit [']', '.'] (']' :: '.' :: tail) = some tail :=
    (dropLit_eq_some _ _ _).mpr rfl
  unfold taggedAt
  rw [e1]
  simp only [e2, e3, e4, e5, e6, e7, ht8, hdr8, e8, hx8.1, hx8.2, htl]
  simp

/-- Function `IsProcessed` holds exactly of strings with a suffix of the tagging
grammar's shape.  Note the grammar is matched against the *whole* string
handed to `IsProcessed`, and the `[^.]*` extension tail admits any
non-dot character (including a path separator). -/
theorem isProcessed_iff_decomp (l : List Char) :
    existsSuffix taggedAt l = true ↔ TaggedDecomp l := by
  rw [existsSuffix_iff]
  constructor
  · rintro ⟨u, v, rfl, hv⟩
    obtain ⟨w, h, d, hx, tail, hveq, p1, p2, p3, p4, p5, p6, p7, p8⟩ :=
      taggedAt_inv v hv
    exact ⟨u, w, h, d, hx, tail, by rw [hveq], p1, p2, p3, p4, p5, p6, p7, p8⟩
  · rintro ⟨pre, w, h, d, hx, tail, heq, hw0, hwd, hh0, hhd, hd0, hdd, hx8, htl⟩
    exact ⟨pre, _, heq,
      taggedAt_build w h d hx tail hw0 hwd hh0 hhd hd0 hdd hx8 htl⟩

/-! ## The hash-bracket scanner -/

theorem hexBracketHead_iff (l : List Char) :
    hexBracketHead l = true ↔ ∃ h b, l = '[' :: (h ++ ']' :: b) ∧ HexRun8 h := by
  constructor
  · intro ht
    unfold hexBracketHead at ht
    split at ht
    · exact absurd ht (by simp)
    rename_i r h1
    simp only [Bool.and_eq_true, beq_iff_eq] at ht
    obtain ⟨⟨hlen, hhex⟩, hm⟩ := ht
    split at hm
    · exact absurd hm (by simp)
    rename_i b h2
    have h1' := (dropLit_eq_some _ _ _).mp h1
    have h2' := (dropLit_eq_some _ _ _).mp h2
    refine ⟨r.take 8, b, ?_, hlen, hhex⟩
    have hr : r = r.take 8 ++ ']' :: b := by
      conv_lhs => rw [← List.take_append_drop 8 r]
      rw [h2']
      rfl
    rw [h1', ← hr]
    rfl
  · rintro ⟨h, b, rfl, hlen, hhex⟩
    have e1 : dropLit ['['] ('[' :: (h ++ ']' :: b)) = some (h ++ ']' :: b) :=
      (dropLit_eq_some _ _ _).mpr rfl
    have ht8 : (h ++ ']' :: b).take 8 = h := List.take_left' hlen
    have hdr8 : (h ++ ']' :: b).drop 8 = ']' :: b := List.drop_left' hlen
    have e2 : dropLit [']'] (']' :: b) = some b := (dropLit_eq_some _ _ _).mpr rfl
    unfold hexBracketHead
    rw [e1]
    simp only [ht8, hdr8, e2, hlen, hhex]
    simp

theorem findHashBracketsAux_fuel (f : Nat) :
    ∀ (l : List Char), l.length ≤ f → ∀ f', l.length ≤ f' →
      findHashBracketsAux f l = findHashBracketsAux f' l := by
  induction f with
  | zero =>
    intro l hl f' _
    rw [List.length_eq_zero.mp (Nat.le_zero.mp hl)]
    cases f' <;> rfl
  | succ f ih =>
    intro l hl f' hl'
    cases l with
    | nil => cases f' <;> rfl
    | cons c rest =>
      cases f' with
      | zero => simp at hl'
      | succ f'' =>
        simp only [List.length_cons, Nat.succ_le_succ_iff] at hl hl'
        show (if hexBracketHead (c :: rest) then _ else _) =
          (if hexBracketHead (c :: rest) then _ else _)
        by_cases hh : hexBracketHead (c :: rest)
        · simp only [hh, if_true]
          have h9 : (rest.drop 9).length ≤ f := by
            simp only [List.length_drop]
            omega
          have h9' : (rest.drop 9).length ≤ f'' := by
            simp only [List.length_drop]
            omega
          rw [ih (rest.drop 9) h9 f'' h9']
        · simp only [hh, if_false]
          exact ih rest hl f'' hl'

theorem findHashBrackets_cons_pos (c : Char) (rest : List Char)
    (h : hexBracketHead (c :: rest) = true) :
    findHashBrackets (c :: rest) = (rest.take 8) :: findHashBrackets (rest.drop 9) := by
  unfold findHashBrackets
  show (if hexBracketHead (c :: rest) then _ else _) = _
  simp only [h, if_true]
  rw [findHashBracketsAux_fuel rest.length (rest.drop 9)
    (by simp only [List.length_drop]; omega) (rest.drop 9).length (Nat.le_refl _)]

theorem findHashBrackets_cons_neg (c : Char) (rest : List Char)
    (h : hexBracketHead (c :: rest) = false) :
    findHashBrackets (c :: rest) = findHashBrackets rest := by
  unfold findHashBrackets
  show (if hexBracketHead (c :: rest) then _ else _) = _
  simp [h]

theorem noHexB_nil : NoHexB [] := by
  rintro ⟨a, h, b, heq, -⟩
  rcases List.append_eq_nil.mp heq.symm with ⟨-, h2⟩
  exact List.cons_ne_nil _ _ h2

theorem noHexB_cons_iff (c : Char) (rest : List Char)
    (hh : hexBracketHead (c :: rest) = false) :
    NoHexB (c :: rest) ↔ NoHexB rest := by
  constructor
  · intro hno ⟨a, h, b, heq, hx⟩
    exact hno ⟨c :: a, h, b, by rw [heq]; rfl, hx⟩
  · intro hno ⟨a, h, b, heq, hx⟩
    cases a with
    | nil =>
      have : hexBracketHead (c :: rest) = true :=
        (hexBracketHead_iff _).mpr ⟨h, b, by simpa using heq, hx⟩
      rw [hh] at this
      exact Bool.false_ne_true this
    | cons a0 a' =>
      simp only [List.cons_append, List.cons.injEq] at heq
      exact hno ⟨a', h, b, heq.2, hx⟩

theorem findHB_nil_iff_aux :
    ∀ (n : Nat) (l : List Char), l.length ≤ n →
      (findHashBrackets l = [] ↔ NoHexB l) := by
  intro n
  induction n with
  | zero =>
    intro l hl
    rw [List.length_eq_zero.mp (Nat.le_zero.mp hl)]
    exact ⟨fun _ => noHexB_nil, fun _ => rfl⟩
  | succ n ih =>
    intro l hl
    cases l with
    | nil => exact ⟨fun _ => noHexB_nil, fun _ => rfl⟩
    | cons c rest =>
      simp only [List.length_cons, Nat.succ_le_succ_iff] at hl
      by_cases hh : hexBracketHead (c :: rest)
      · rw [findHashBrackets_cons_pos c rest hh]
        obtain ⟨h, b, heq, hx⟩ := (hexBracketHead_iff _).mp hh
        constructor
        · intro habs
          exact absurd habs (List.cons_ne_nil _ _)
        · intro hno
          exact absurd (hno ⟨[], h, b, by simpa using heq, hx⟩) (by simp)
      · rw [findHashBrackets_cons_neg c rest (Bool.not_eq_true _ ▸ hh),
          ih rest hl]
        exact (noHexB_cons_iff c rest (by simpa using hh)).symm

/-- The scan finds nothing iff the string contains no hex bracket. -/
theorem findHashBrackets_eq_nil_iff (l : List Char) :
    findHashBrackets l = [] ↔ NoHexB l :=
  findHB_nil_iff_aux l.length l (Nat.le_refl _)

/-- Value of the scan on a string that starts with a hex bracket. -/
theorem findHashBrackets_bracket_head (h v : List Char) (hx : HexRun8 h) :
    findHashBrackets ('[' :: (h ++ ']' :: v)) = h :: findHashBrackets v := by
  have hh : hexBracketHead ('[' :: (h ++ ']' :: v)) = true :=
    (hexBracketHead_iff _).mpr ⟨h, v, rfl, hx⟩
  rw [findHashBrackets_cons_pos _ _ hh, List.take_left' hx.1]
  congr 1
  have : (h ++ ']' :: v).drop 9 = v := by
    rw [List.drop_append_eq_append_drop]
    simp [List.drop_eq_nil_of_le, hx.1]
  rw [this]

theorem findHB_getLast_aux :
    ∀ (n : Nat) (l : List Char), l.length ≤ n → ∀ h,
      (findHashBrackets l).getLast? = some h → IsLastHexBracket l h := by
  intro n
  induction n with
  | zero =>
    intro l hl h hlast
    rw [List.length_eq_zero.mp (Nat.le_zero.mp hl)] at hlast
    exact absurd hlast (by simp [findHashBrackets, findHashBracketsAux])
  | succ n ih =>
    intro l hl h hlast
    cases l with
    | nil => exact absurd hlast (by simp [findHashBrackets, findHashBracketsAux])
    | cons c rest =>
      simp only [List.length_cons, Nat.succ_le_succ_iff] at hl
      by_cases hh : hexBracketHead (c :: rest)
      · obtain ⟨hx, b, heq, hx8⟩ := (hexBracketHead_iff _).mp hh
        obtain ⟨hc, hrest⟩ := List.cons.injEq .. ▸ heq
        subst hc
        subst hrest
        rw [findHashBrackets_bracket_head hx b hx8] at hlast
        have hblen : b.length ≤ n := by
          have := List.length_append hx (']' :: b)
          simp only [List.length_cons] at this hl
          omega
        cases hfb : findHashBrackets b with
        | nil =>
          rw [hfb] at hlast
          simp only [List.getLast?_singleton, Option.some.injEq] at hlast
          subst hlast
          exact ⟨[], b, rfl, hx8, (findHashBrackets_eq_nil_iff b).mp hfb⟩
        | cons t0 t' =>
          rw [hfb] at hlast
          rw [List.getLast?_cons_cons] at hlast
          rw [← hfb] at hlast
          obtain ⟨u', v, hbeq, hx8', hnov⟩ := ih b hblen h hlast
          refine ⟨'[' :: (hx ++ ']' :: u'), v, ?_, hx8', hnov⟩
          rw [hbeq]
          simp
      · rw [findHashBrackets_cons_neg c rest (by simpa using hh)] at hlast
        obtain ⟨u, v, heq, hx8, hnov⟩ := ih rest hl h hlast
        exact ⟨c :: u, v, by rw [heq]; rfl, hx8, hnov⟩

/-- The last capture of the scan is the last hex bracket of the string. -/
theorem findHashBrackets_getLast (l h : List Char)
    (hlast : (findHashBrackets l).getLast? = some h) : IsLastHexBracket l h :=
  findHB_getLast_aux l.length l (Nat.le_refl _) h hlast

theorem findHB_append_bracket_aux :
    ∀ (n : Nat) (u : List Char), u.length ≤ n → ∀ h v, HexRun8 h →
      ∃ X, findHashBrackets (u ++ '[' :: (h ++ ']' :: v)) =
        X ++ h :: findHashBrackets v := by
  intro n
  induction n with
  | zero =>
    intro u hu h v hx
    rw [List.length_eq_zero.mp (Nat.le_zero.mp hu)]
    exact ⟨[], by rw [List.nil_append, findHashBrackets_bracket_head h v hx]; rfl⟩
  | succ n ih =>
    intro u hu h v hx
    cases u with
    | nil =>
      exact ⟨[], by rw [List.nil_append, findHashBrackets_bracket_head h v hx]; rfl⟩
    | cons c u' =>
      simp only [List.length_cons, Nat.succ_le_succ_iff] at hu
      simp only [List.cons_append]
      by_cases hh : hexBracketHead (c :: (u' ++ '[' :: (h ++ ']' :: v)))
      · obtain ⟨hx0, b0, heq, hx08⟩ := (hexBracketHead_iff _).mp hh
        obtain ⟨hc, hR⟩ := List.cons.injEq .. ▸ heq
        subst hc
        rcases List.append_eq_append_iff.mp hR with ⟨a', ha1, ha2⟩ | ⟨c', hc1, hc2⟩
        · exfalso
          cases a' with
          | nil =>
            rw [List.append_nil] at ha1
            simp at ha2
          | cons a0 a'' =>
            simp only [List.cons_append, List.cons.injEq] at ha2
            have hmem : a0 ∈ hx0 := by
              rw [ha1]
              exact List.mem_append_right _ (List.mem_cons_self _ _)
            have := (List.all_eq_true.mp hx08.2) a0 hmem
            rw [← ha2.1] at this
            exact absurd this (by decide)
        · cases c' with
          | nil =>
            exfalso
            rw [List.append_nil] at hc1
            simp at hc2
          | cons c0 c'' =>
            simp only [List.cons_append, List.cons.injEq] at hc2
            obtain ⟨hc0, hb0⟩ := hc2
            have hR9 : (u' ++ '[' :: (h ++ ']' :: v)).drop 9 = b0 := by
              rw [hR, List.drop_append_eq_append_drop]
              simp [List.drop_eq_nil_of_le, hx08.1]
            have hlen : c''.length ≤ n := by
              have h1 : u'.length = hx0.length + (c0 :: c'').length := by
                rw [hc1, List.length_append]
              simp only [List.length_cons, hx08.1] at h1
              omega
            obtain ⟨X', hX'⟩ := ih c'' hlen h v hx
            rw [← hb0] at hX'
            refine ⟨(u' ++ '[' :: (h ++ ']' :: v)).take 8 :: X', ?_⟩
            rw [findHashBrackets_cons_pos _ _ hh, hR9, hX']
            rfl
      · rw [findHashBrackets_cons_neg _ _ (by simpa using hh)]
        obtain ⟨X, hX⟩ := ih u' hu h v hx
        exact ⟨X, hX⟩

/-- Scanning `u ++ [h] ++ v` yields `h` at the position after everything
found in `u`, followed by the scan of `v`. -/
theorem findHashBrackets_append_bracket (u h v : List Char) (hx : HexRun8 h) :
    ∃ X, findHashBrackets (u ++ '[' :: (h ++ ']' :: v)) =
      X ++ h :: findHashBrackets v :=
  findHB_append_bracket_aux u.length u (Nat.le_refl _) h v hx

/-! ## Facts about the encoder's building blocks -/

theorem resolutionOk_inv (l : List Char) (h : resolutionOk l = true) :
    ∃ w r, l = w ++ 'x' :: r ∧ w ≠ [] ∧ w.all Char.isDigit = true ∧
      r ≠ [] ∧ r.all Char.isDigit = true := by
  unfold resolutionOk at h
  split at h
  · exact absurd h (by simp)
  rename_i r1 h1
  split at h
  · exact absurd h (by simp)
  rename_i r2 h2
  split at h
  · exact absurd h (by simp)
  rename_i r3 h3
  obtain ⟨w, hw, hw0, hwd⟩ := afterDigits_inv _ _ h1
  obtain ⟨d, hd, hd0, hdd⟩ := afterDigits_inv _ _ h3
  have h2' := (dropLit_eq_some _ _ _).mp h2
  have hr3 : r3 = [] := by
    cases r3 with
    | nil => rfl
    | cons a t => simp [List.isEmpty] at h
  subst hr3
  rw [List.append_nil] at hd
  refine ⟨w, d, ?_, hw0, hwd, hd0, hdd⟩
  rw [hw, h2', hd]
  rfl

theorem isDigit_ofNat (k : Nat) (hk : k < 10) :
    (Char.ofNat (48 + k)).isDigit = true := by
  interval_cases k <;> decide

theorem natDigitsAux_all (f n : Nat) :
    (natDigitsAux f n).all Char.isDigit = true := by
  induction f generalizing n with
  | zero => rfl
  | succ f ih =>
    unfold natDigitsAux
    split_ifs with h
    · simp [isDigit_ofNat n h]
    · rw [List.all_append]
      refine Bool.and_eq_true_iff.mpr ⟨ih _, ?_⟩
      simp [isDigit_ofNat (n % 10) (Nat.mod_lt _ (by omega))]

theorem natToDigits_all (n : Nat) : (natToDigits n).all Char.isDigit = true :=
  natDigitsAux_all _ _

theorem natToDigits_ne_nil (n : Nat) : natToDigits n ≠ [] := by
  unfold natToDigits natDigitsAux
  split_ifs <;> simp

theorem isHexDigit_hexChar (k : Nat) (hk : k < 16) :
    isHexDigit (hexChar k) = true := by
  interval_cases k <;> decide

theorem toHex8_hexRun (n : Nat) : HexRun8 (toHex8 n) := by
  refine ⟨rfl, ?_⟩
  unfold toHex8
  simp only [List.all_cons, List.all_nil, Bool.and_eq_true]
  refine ⟨?_, ?_, ?_, ?_, ?_, ?_, ?_, ?_, trivial⟩ <;>
    exact isHexDigit_hexChar _ (Nat.mod_lt _ (by omega))

/-! ## Facts about `filepath.Ext` -/

theorem extAcc_suffix :
    ∀ (r acc : List Char), extAcc r acc = [] ∨
      ∃ pre, r.reverse ++ acc = pre ++ extAcc r acc := by
  intro r
  induction r with
  | nil => exact fun _ => Or.inl rfl
  | cons c rest ih =>
    intro acc
    unfold extAcc
    split_ifs with h1 h2
    · exact Or.inl rfl
    · refine Or.inr ⟨rest.reverse, ?_⟩
      subst h2
      simp
    · rcases ih (c :: acc) with hnil | ⟨pre, hpre⟩
      · exact Or.inl hnil
      · refine Or.inr ⟨pre, ?_⟩
        rw [← hpre]
        simp

theorem extAcc_dot :
    ∀ (r acc : List Char), noDot acc = true →
      extAcc r acc = [] ∨
      ∃ tail, extAcc r acc = '.' :: tail ∧ noDot tail = true := by
  intro r
  induction r with
  | nil => exact fun _ _ => Or.inl rfl
  | cons c rest ih =>
    intro acc hacc
    unfold extAcc
    split_ifs with h1 h2
    · exact Or.inl rfl
    · exact Or.inr ⟨acc, rfl, hacc⟩
    · refine ih (c :: acc) ?_
      simp only [noDot, List.all_cons, Bool.and_eq_true]
      exact ⟨by simp [h2], hacc⟩

theorem take_sub_append (l pre e : List Char) (h : l = pre ++ e) :
    l.take (l.length - e.length) ++ e = l := by
  subst h
  rw [List.length_append, Nat.add_sub_cancel, List.take_left]

/-- Every path splits as its non-extension part followed by its
extension, and the non-extension part is what `generateTaggedFilename`
keeps. -/
theorem filepathExt_split (p : String) :
    p.data.take (p.data.length - (filepathExt p).data.length) ++
      (filepathExt p).data = p.data := by
  rcases extAcc_suffix p.data.reverse [] with hnil | ⟨pre, hpre⟩
  · simp only [filepathExt, hnil]
    simp
  · rw [List.append_nil, List.reverse_reverse] at hpre
    exact take_sub_append _ pre _ hpre

/-! ## Claims C8, C4, C3: the codec -/

/-- C8, counterexample: `IsProcessed` applies the tagging regex to the
*whole* path string; since the `[^.]*` extension tail also matches a path
separator, the path `a_[1x1][2min][AABBCCDD].b/c` is classified tagged
even though its final filename segment `c` does not end with the bracket
grammar.  This refutes the "final filename segment" reading of the
claim. -/
theorem c8_counterexample :
    isProcessed "a_[1x1][2min][AABBCCDD].b/c" = true ∧
    filepathBase "a_[1x1][2min][AABBCCDD].b/c" = "c" ∧
    isProcessed (filepathBase "a_[1x1][2min][AABBCCDD].b/c") = false :=
  ⟨by decide, by decide, by decide⟩

/-- C8 (amended): `IsTagged(path)` is true iff the *path string as a
whole* ends, immediately before a dot-free tail introduced by a final
dot, with the fixed bracket grammar `_[WxH][Dmin][8-hex]`; for plain
filenames (no separator) this coincides with the final-segment reading.
In particular `IsTagged("video_[1920x1080].mp4")` is false because the
duration and hash components are missing. -/
theorem c8_isProcessed_iff_grammar :
    (∀ s : String, isProcessed s = true ↔ TaggedDecomp s.data) ∧
    isProcessed "video_[1920x1080].mp4" = false :=
  ⟨fun s => isProcessed_iff_decomp s.data, by decide⟩

/-- C4: `ExtractHash` returns nothing for every untagged filename; for a
tagged filename it returns the capture of the last 8-hex-digit bracket
group anywhere in the filename (not necessarily the tagging brackets);
in particular `ExtractHash("Show[S02E03][HD]_[3840x2160][30min][FEDCBA98].webm")`
is `("FEDCBA98", true)`. -/
theorem c4_extractHash_gate_and_lastBracket :
    (∀ s : String, isProcessed s = false → extractHashFromFilename s = none) ∧
    (∀ s : String, isProcessed s = true →
      ∃ h, extractHashFromFilename s = some (String.mk h) ∧
        IsLastHexBracket s.data h) ∧
    extractHashFromFilename "Show[S02E03][HD]_[3840x2160][30min][FEDCBA98].webm"
      = some "FEDCBA98" := by
  refine ⟨?_, ?_, by decide⟩
  · intro s hs
    unfold extractHashFromFilename
    rw [show existsSuffix taggedAt s.data = false from hs]
    simp
  · intro s hs
    obtain ⟨pre, w, h, d, hx, tail, heq, hw0, hwd, hh0, hhd, hd0, hdd, hx8, htl⟩ :=
      (isProcessed_iff_decomp s.data).mp hs
    have hU : s.data =
        (pre ++ '_' :: '[' ::
          (w ++ 'x' :: (h ++ ']' :: '[' :: (d ++ ['m', 'i', 'n', ']'])))) ++
        '[' :: (hx ++ ']' :: ('.' :: tail)) := by
      rw [heq]
      simp [List.append_assoc]
    have hne : findHashBrackets s.data ≠ [] := by
      intro hnil
      exact (findHashBrackets_eq_nil_iff _).mp hnil ⟨_, hx, _, hU, hx8⟩
    cases hfind : findHashBrackets s.data with
    | nil => exact absurd hfind hne
    | cons a t =>
      have hlast : (findHashBrackets s.data).getLast? =
          some ((a :: t).getLast (by simp)) := by
        rw [hfind]
        exact List.getLast?_eq_getLast _ _
      refine ⟨(a :: t).getLast (by simp), ?_,
        findHashBrackets_getLast _ _ hlast⟩
      unfold extractHashFromFilename
      rw [show existsSuffix taggedAt s.data = true from hs]
      simp only [if_true]
      rw [hlast]

/-- C3, counterexample: the round trip fails for two families of paths.
An extensionless path encodes to a name with no trailing dot, which
`IsTagged` rejects; and a path whose extension itself contains an
8-hex-digit bracket makes that bracket the *last* one, so extraction
returns it instead of the embedded hash (here `AAAAAAAA` instead of the
encoded `BBBBBBBB`). -/
theorem c3_counterexample :
    isProcessed (generateTaggedFilename "video" ⟨"1x1", 2⟩ 0xAABBCCDD) = false ∧
    extractHashFromFilename
        (generateTaggedFilename "v.[AAAAAAAA]" ⟨"1x1", 2⟩ 0xBBBBBBBB)
      = some "AAAAAAAA" ∧
    eqCaseInsensitive "AAAAAAAA".data (toHex8 0xBBBBBBBB) = false :=
  ⟨by decide, by decide, by decide⟩

/-- C3 (amended): for every path whose filename has a non-empty
extension and whose extension contains no 8-hex-digit bracket group,
every resolution matching `^\d+x\d+$`, every rendered duration, and
every `uint32` hash value, the encoded name is classified tagged and
`ExtractHash` returns the embedded hash (equal up to case-insensitive
comparison). -/
theorem c3_encode_roundtrip (p res : String) (dur crc : Nat)
    (hres : resolutionOk res.data = true)
    (_hcrc : crc < 2 ^ 32)
    (hext : (filepathExt p).data.head? = some '.')
    (hnob : findHashBrackets (filepathExt p).data = []) :
    isProcessed (generateTaggedFilename p ⟨res, dur⟩ crc) = true ∧
    ∃ hs, extractHashFromFilename (generateTaggedFilename p ⟨res, dur⟩ crc)
        = some hs ∧ eqCaseInsensitive hs.data (toHex8 crc) = true := by
  obtain ⟨w, r, hres_eq, hw0, hwd, hr0, hrd⟩ := resolutionOk_inv _ hres
  rcases extAcc_dot p.data.reverse [] rfl with hnil | ⟨tail, htail_eq, htl⟩
  · exfalso
    have : (filepathExt p).data = [] := hnil
    rw [this] at hext
    exact Option.noConfusion hext
  · have hextd : (filepathExt p).data = '.' :: tail := htail_eq
    have henc : (generateTaggedFilename p ⟨res, dur⟩ crc).data =
        p.data.take (p.data.length - (filepathExt p).data.length) ++
          '_' :: '[' :: res.data ++ ']' :: '[' :: natToDigits dur ++
          'm' :: 'i' :: 'n' :: ']' :: '[' :: toHex8 crc ++ ']' ::
          (filepathExt p).data := rfl
    have hproc : isProcessed (generateTaggedFilename p ⟨res, dur⟩ crc) = true := by
      refine (isProcessed_iff_decomp _).mpr
        ⟨p.data.take (p.data.length - (filepathExt p).data.length),
         w, r, natToDigits dur, toHex8 crc, tail, ?_, hw0, hwd, hr0, hrd,
         natToDigits_ne_nil dur, natToDigits_all dur, toHex8_hexRun crc, htl⟩
      rw [henc, hres_eq, hextd]
      simp [List.append_assoc]
    refine ⟨hproc, String.mk (toHex8 crc), ?_, ?_⟩
    · have hU : (generateTaggedFilename p ⟨res, dur⟩ crc).data =
          (p.data.take (p.data.length - (filepathExt p).data.length) ++
            '_' :: '[' :: res.data ++ ']' :: '[' :: natToDigits dur ++
            ['m', 'i', 'n', ']']) ++
          '[' :: (toHex8 crc ++ ']' :: ('.' :: tail)) := by
        rw [henc, hextd]
        simp [List.append_assoc]
      obtain ⟨X, hX⟩ := findHashBrackets_append_bracket
        (p.data.take (p.data.length - (filepathExt p).data.length) ++
          '_' :: '[' :: res.data ++ ']' :: '[' :: natToDigits dur ++
          ['m', 'i', 'n', ']'])
        (toHex8 crc) ('.' :: tail) (toHex8_hexRun crc)
      have hnob' : findHashBrackets ('.' :: tail) = [] := hextd ▸ hnob
      have hfind : findHashBrackets
          (generateTaggedFilename p ⟨res, dur⟩ crc).data =
          X ++ [toHex8 crc] := by
        rw [hU, hX, hnob']
      have hlast : (findHashBrackets
          (generateTaggedFilename p ⟨res, dur⟩ crc).data).getLast? =
          some (toHex8 crc) := by
        rw [hfind]
        exact List.getLast?_concat _
      unfold extractHashFromFilename
      rw [show existsSuffix taggedAt
        (generateTaggedFilename p ⟨res, dur⟩ crc).data = true from hproc]
      simp only [if_true]
      rw [hlast]
    · simp [eqCaseInsensitive]

/-- Witness for `c3_encode_roundtrip` at a concrete input. -/
theorem c3_encode_roundtrip_witness :
    isProcessed (generateTaggedFilename "dir/video.mp4" ⟨"1920x1080", 30⟩
      0xDEADBEEF) = true ∧
    ∃ hs, extractHashFromFilename (generateTaggedFilename "dir/video.mp4"
        ⟨"1920x1080", 30⟩ 0xDEADBEEF) = some hs ∧
      eqCaseInsensitive hs.data (toHex8 0xDEADBEEF) = true :=
  c3_encode_roundtrip "dir/video.mp4" "1920x1080" 30 0xDEADBEEF
    (by decide) (by decide) (by decide) (by decide)

theorem addToIndex_not_mem (idx : List (String × List String)) (h p q : String)
    (hq : ∀ e ∈ idx, q ∉ e.2) (hne : q ≠ p) :
    ∀ e ∈ addToIndex idx h p, q ∉ e.2 := by
  induction idx with
  | nil =>
    intro e he
    simp only [addToIndex, List.mem_singleton] at he
    subst he
    simp [hne]
  | cons kv rest ih =>
    obtain ⟨k, ps⟩ := kv
    intro e he
    unfold addToIndex at he
    split_ifs at he with hk
    · rcases List.mem_cons.mp he with rfl | hmem
      · simp only [List.mem_append, List.mem_singleton]
        rintro (hin | rfl)
        · exact hq (k, ps) (List.mem_cons_self _ _) hin
        · exact hne rfl
      · exact hq e (List.mem_cons_of_mem _ hmem)
    · rcases List.mem_cons.mp he with rfl | hmem
      · exact hq _ (List.mem_cons_self _ _)
      · exact ih (fun e' he' => hq e' (List.mem_cons_of_mem _ he')) e hmem

theorem buildIndex_not_mem (files : List String) (q : String)
    (hq : extractHashFromFilename (filepathBase q) = none) :
    ∀ (idx0 : List (String × List String)), (∀ e ∈ idx0, q ∉ e.2) →
      ∀ e ∈ files.foldl (fun idx path =>
          match extractHashFromFilename (filepathBase path) with
          | some h => addToIndex idx h path
          | none => idx) idx0, q ∉ e.2 := by
  induction files with
  | nil => exact fun idx0 h0 => h0
  | cons p rest ih =>
    intro idx0 h0
    simp only [List.foldl_cons]
    cases hp : extractHashFromFilename (filepathBase p) with
    | none => exact ih idx0 h0
    | some h =>
      refine ih _ ?_
      refine addToIndex_not_mem idx0 h p q h0 ?_
      rintro rfl
      rw [hq] at hp
      exact Option.noConfusion hp

/-- C7: the duplicate index keeps only hash groups with at least two
paths; any file whose hash extraction fails is silently excluded from
every group; and the A/B/C grouping example holds. -/
theorem c7_duplicate_index :
    (∀ (files : List String) (e : String × List String),
      e ∈ findDuplicatesByHash files → 2 ≤ e.2.length) ∧
    (∀ (files : List String) (q : String),
      extractHashFromFilename (filepathBase q) = none →
      ∀ e ∈ findDuplicatesByHash files, q ∉ e.2) ∧
    findDuplicatesByHash
      ["A_[1x1][1min][DEADBEEF].mp4", "B_[1x1][2min][DEADBEEF].mp4",
       "C_[1x1][3min][AABBCCDD].mp4"]
      = [("DEADBEEF",
          ["A_[1x1][1min][DEADBEEF].mp4", "B_[1x1][2min][DEADBEEF].mp4"])] := by
  refine ⟨?_, ?_, by decide⟩
  · intro files e he
    have := List.of_mem_filter he
    exact of_decide_eq_true this
  · intro files q hq e he
    exact buildIndex_not_mem files q hq [] (by simp) e (List.mem_of_mem_filter he)

/-- Witness for the hypothesis-bearing parts of `c7_duplicate_index`:
a file whose extraction fails is in no group of a concrete index. -/
theorem c7_duplicate_index_witness :
    "plain.mp4" ∉ (("DEADBEEF",
      ["A_[1x1][1min][DEADBEEF].mp4", "B_[1x1][2min][DEADBEEF].mp4"]) :
        String × List String).2 :=
  c7_duplicate_index.2.1
    ["A_[1x1][1min][DEADBEEF].mp4", "B_[1x1][2min][DEADBEEF].mp4",
     "C_[1x1][3min][AABBCCDD].mp4"]
    "plain.mp4" (by decide) _ (by decide)

theorem baseAcc_no_sep :
    ∀ (r acc : List Char), '/' ∉ r → baseAcc r acc = r.reverse ++ acc := by
  intro r
  induction r with
  | nil => intro acc _; rfl
  | cons c rest ih =>
    intro acc hc
    have hcne : c ≠ '/' := by
      intro h
      subst h
      exact hc (List.mem_cons_self _ _)
    unfold baseAcc
    rw [if_neg hcne]
    rw [ih (c :: acc) (fun h => hc (List.mem_cons_of_mem _ h))]
    simp

/-- A separator-free path is its own base name. -/
theorem filepathBase_eq_self (p : String) (hp : '/' ∉ p.data) :
    filepathBase p = p := by
  unfold filepathBase
  rw [baseAcc_no_sep p.data.reverse [] (by simpa using hp)]
  rw [List.append_nil, List.reverse_reverse]

/-- A video file's name matches `fd`'s extension pattern somewhere (its
own extension is such an occurrence). -/
theorem fdExtMatch_of_isVideoFile (p : String) (h : isVideoFile p = true) :
    fdExtMatch p = true := by
  unfold isVideoFile at h
  rw [List.any_eq_true] at h
  obtain ⟨e, he, heq⟩ := h
  rw [beq_iff_eq] at heq
  rcases extAcc_suffix p.data.reverse [] with hnil | ⟨pre, hpre⟩
  · exfalso
    have hext : (filepathExt p).data = [] := hnil
    rw [hext] at heq
    simp only [List.map_nil] at heq
    simp only [videoExtensions, List.mem_cons, List.not_mem_nil, or_false] at he
    rcases he with rfl | rfl | rfl | rfl | rfl | rfl | rfl | rfl <;>
      exact absurd heq (by decide)
  · rw [List.append_nil, List.reverse_reverse] at hpre
    unfold fdExtMatch
    rw [existsSuffix_iff]
    refine ⟨pre, (filepathExt p).data, hpre, ?_⟩
    unfold fdExtPatAt
    rw [List.any_eq_true]
    refine ⟨e, he, ?_⟩
    have hlen : e.length = (filepathExt p).data.length := by
      rw [← heq, List.length_map]
    rw [hlen, List.take_length]
    exact beq_iff_eq.mpr heq

/-- A tagged filename matches `fd`'s (looser) tagged pattern. -/
theorem fdTaggedMatch_of_isProcessed (p : String) (h : isProcessed p = true) :
    fdTaggedMatch p = true := by
  obtain ⟨pre, w, hh, d, hx, tail, heq, hw0, hwd, hh0, hhd, hd0, hdd, hx8, htl⟩ :=
    (isProcessed_iff_decomp p.data).mp h
  unfold fdTaggedMatch
  rw [existsSuffix_iff]
  refine ⟨pre, _, heq, ?_⟩
  unfold fdTagPatAt
  have e1 : dropLit ['_', '[']
      ('_' :: '[' :: (w ++ 'x' :: (hh ++ ']' :: '[' ::
        (d ++ 'm' :: 'i' :: 'n' :: ']' :: '[' :: (hx ++ ']' :: '.' :: tail))))) =
      some (w ++ 'x' :: (hh ++ ']' :: '[' ::
        (d ++ 'm' :: 'i' :: 'n' :: ']' :: '[' :: (hx ++ ']' :: '.' :: tail)))) :=
    (dropLit_eq_some _ _ _).mpr rfl
  rw [e1]
  show existsSuffix _ _ = true
  rw [existsSuffix_iff]
  refine ⟨w ++ 'x' :: hh, ']' :: '[' ::
    (d ++ 'm' :: 'i' :: 'n' :: ']' :: '[' :: (hx ++ ']' :: '.' :: tail)), by
      simp [List.append_assoc], ?_⟩
  have e2 : dropLit [']', '['] (']' :: '[' ::
      (d ++ 'm' :: 'i' :: 'n' :: ']' :: '[' :: (hx ++ ']' :: '.' :: tail))) =
      some (d ++ 'm' :: 'i' :: 'n' :: ']' :: '[' :: (hx ++ ']' :: '.' :: tail)) :=
    (dropLit_eq_some _ _ _).mpr rfl
  rw [e2]
  show existsSuffix _ _ = true
  rw [existsSuffix_iff]
  refine ⟨d, 'm' :: 'i' :: 'n' :: ']' :: '[' :: (hx ++ ']' :: '.' :: tail), rfl, ?_⟩
  have e3 : dropLit ['m', 'i', 'n', ']', '['] ('m' :: 'i' :: 'n' :: ']' :: '[' ::
      (hx ++ ']' :: '.' :: tail)) = some (hx ++ ']' :: '.' :: tail) :=
    (dropLit_eq_some _ _ _).mpr rfl
  rw [e3]
  have ht8 : (hx ++ ']' :: '.' :: tail).take 8 = hx := List.take_left' hx8.1
  have hdr8 : (hx ++ ']' :: '.' :: tail).drop 8 = ']' :: '.' :: tail :=
    List.drop_left' hx8.1
  have e4 : dropLit [']', '.'] (']' :: '.' :: tail) = some tail :=
    (dropLit_eq_some _ _ _).mpr rfl
  simp only [ht8, hdr8, e4, hx8.1, hx8.2]
  simp

/-- C5, counterexample: the two tagged-file strategies are *not*
equivalent.  `fd`'s tagged pattern accepts `[abc]` as a resolution
(`.*` vs `\d+x\d+`) and the fd branch post-filters only by extension,
never by `IsProcessed`, so the walk rejects this file while the fd
strategy returns it. -/
theorem c5_counterexample :
    findTaggedFilesWithWalkDir ["a_[abc][3min][AABBCCDD].mp4"] = [] ∧
    findTaggedFilesWithFd ["a_[abc][3min][AABBCCDD].mp4"]
      = ["a_[abc][3min][AABBCCDD].mp4"] :=
  ⟨by decide, by decide⟩

/-- C5 (amended): on the same listing of plain filenames, the two
*untagged*-file strategies return identical results (the fd branch is
post-filtered through the same `IsVideoFile`/`IsProcessed` predicates
the walk uses), but for *tagged*-file discovery only one inclusion
holds: everything the walk finds is also found by the fd strategy, whose
raw output is post-filtered only through the extension predicate. -/
theorem c5_scanner_strategies (listing : List String)
    (hflat : ∀ p ∈ listing, '/' ∉ p.data) :
    findUnprocessedFilesWithFd listing = findUnprocessedFilesWithWalkDir listing ∧
    ∀ p ∈ findTaggedFilesWithWalkDir listing, p ∈ findTaggedFilesWithFd listing := by
  constructor
  · unfold findUnprocessedFilesWithFd findUnprocessedFilesWithWalkDir
    rw [List.filter_filter]
    apply List.filter_congr
    intro p hp
    by_cases hv : isVideoFile p = true
    · have hbase : filepathBase p = p := filepathBase_eq_self p (hflat p hp)
      have hfd : fdExtMatch (filepathBase p) = true := by
        rw [hbase]
        exact fdExtMatch_of_isVideoFile p hv
      have hp0 : p ≠ "" := by
        rintro rfl
        exact absurd hv (by decide)
      simp [hfd, hv, hp0]
    · have hv' : isVideoFile p = false := by simpa using hv
      simp [hv']
  · intro p hp
    rw [findTaggedFilesWithWalkDir, List.mem_filter, Bool.and_eq_true] at hp
    obtain ⟨hmem, hvid, hproc⟩ := hp
    have hp0 : p ≠ "" := by
      rintro rfl
      exact absurd hvid (by decide)
    rw [findTaggedFilesWithFd, List.mem_filter, List.mem_filter]
    refine ⟨⟨hmem, ?_⟩, ?_⟩
    · rw [filepathBase_eq_self p (hflat p hmem)]
      exact fdTaggedMatch_of_isProcessed p hproc
    · simp [hvid, hp0]

/-- Witness for `c5_scanner_strategies` on a concrete flat listing. -/
theorem c5_scanner_strategies_witness :
    findUnprocessedFilesWithFd
        ["video.mp4", "tagged_[1x1][2min][AABBCCDD].mkv", "notes.txt"] =
      findUnprocessedFilesWithWalkDir
        ["video.mp4", "tagged_[1x1][2min][AABBCCDD].mkv", "notes.txt"] :=
  (c5_scanner_strategies
    ["video.mp4", "tagged_[1x1][2min][AABBCCDD].mkv", "notes.txt"]
    (by decide)).1

/-- C6: the worker-count policy.  An explicit override (`workers > 0`)
always wins; otherwise any network-mount-matching input path forces the
count to 1; otherwise the count is the host's logical core count. -/
theorem c6_worker_count_policy (abs : String → Option String) (w : Int)
    (files : List String) (ncpu : Int) :
    (0 < w → effectiveWorkerCount abs w files ncpu = w) ∧
    (w ≤ 0 → files.any (fun f => isNetworkDrive abs f) = true →
      effectiveWorkerCount abs w files ncpu = 1) ∧
    (w ≤ 0 → files.any (fun f => isNetworkDrive abs f) = false →
      effectiveWorkerCount abs w files ncpu = ncpu) := by
  refine ⟨?_, ?_, ?_⟩ <;> intro hw <;> unfold effectiveWorkerCount
  · rw [if_neg (by omega)]
  · intro hnet
    rw [if_pos hw, hnet]
    rfl
  · intro hnet
    rw [if_pos hw, hnet]
    rfl

/-- Witness for `c6_worker_count_policy`: with `filepath.Abs` behaving
as the identity, an override of 4 wins even on a network path; with no
override a `/mnt/...` path forces 1 worker; with no override and a local
path the count equals the core count. -/
theorem c6_worker_count_policy_witness :
    effectiveWorkerCount Option.some 4 ["/mnt/share/v.mp4"] 8 = 4 ∧
    effectiveWorkerCount Option.some 0 ["/mnt/share/v.mp4"] 8 = 1 ∧
    effectiveWorkerCount Option.some 0 ["/home/u/v.mp4"] 8 = 8 :=
  ⟨(c6_worker_count_policy Option.some 4 ["/mnt/share/v.mp4"] 8).1 (by norm_num),
   (c6_worker_count_policy Option.some 0 ["/mnt/share/v.mp4"] 8).2.1
     (by norm_num) (by decide),
   (c6_worker_count_policy Option.some 0 ["/home/u/v.mp4"] 8).2.2
     (by norm_num) (by decide)⟩

example :
    handleDeletionComplete
      { groups :=
          [⟨"h1", ["a", "b", "c"], [false, true, false], []⟩,
           ⟨"h2", ["d", "e"], [true, false], []⟩],
        currentGroup := 1, currentFile := 1, confirmingDeletion := false,
        pendingDeletion := ["b", "d"], quitting := false }
      ⟨"", true, none⟩ =
      { groups := [⟨"h1", ["a", "c"], [false, false], ["b"]⟩],
        currentGroup := 0, currentFile := 1, confirmingDeletion := false,
        pendingDeletion := [], quitting := false } := by decide

theorem zip_filterMap_mem (f : String) :
    ∀ (fs : List String) (bs : List Bool), fs.length = bs.length →
      (f ∈ (fs.zip bs).filterMap (fun x => if x.2 then some x.1 else none) ↔
        ∃ i, i < fs.length ∧ fs.getD i "" = f ∧ bs.getD i false = true) := by
  intro fs
  induction fs with
  | nil =>
    intro bs _
    simp
  | cons f0 fs' ih =>
    intro bs h
    cases bs with
    | nil => simp at h
    | cons b0 bs' =>
      simp only [List.length_cons, Nat.add_right_cancel_iff] at h
      cases b0 with
      | true =>
        have hstep :
            List.filterMap (fun x => if x.2 = true then some x.1 else none)
              ((f0 :: fs').zip (true :: bs')) =
            f0 :: List.filterMap (fun x => if x.2 = true then some x.1 else none)
              (fs'.zip bs') := rfl
        rw [hstep]
        constructor
        · intro hmem
          rcases List.mem_cons.mp hmem with rfl | hmem'
          · exact ⟨0, by simp, rfl, rfl⟩
          · obtain ⟨i, hi, hf, hb⟩ := (ih bs' h).mp hmem'
            exact ⟨i + 1, by simpa using Nat.succ_lt_succ hi, hf, hb⟩
        · rintro ⟨i, hi, hf, hb⟩
          cases i with
          | zero =>
            simp only [List.getD_cons_zero] at hf
            exact hf ▸ List.mem_cons_self _ _
          | succ i' =>
            simp only [List.getD_cons_succ] at hf hb
            refine List.mem_cons_of_mem _ ((ih bs' h).mpr ⟨i', ?_, hf, hb⟩)
            simpa using Nat.lt_of_succ_lt_succ hi
      | false =>
        have hstep :
            List.filterMap (fun x => if x.2 = true then some x.1 else none)
              ((f0 :: fs').zip (false :: bs')) =
            List.filterMap (fun x => if x.2 = true then some x.1 else none)
              (fs'.zip bs') := rfl
        rw [hstep, ih bs' h]
        constructor
        · rintro ⟨i, hi, hf, hb⟩
          exact ⟨i + 1, by simpa using Nat.succ_lt_succ hi, hf, hb⟩
        · rintro ⟨i, hi, hf, hb⟩
          cases i with
          | zero => simp at hb
          | succ i' =>
            simp only [List.getD_cons_succ] at hf hb
            exact ⟨i', by simpa using Nat.lt_of_succ_lt_succ hi, hf, hb⟩

/-- C9: request-delete gathers every selected file across all groups
(characterized by indexed membership), is a no-op on an empty selection,
and otherwise stages the batch and moves to the confirmation state. -/
theorem c9_request_delete (m : DuplicatesModel)
    (hlen : ∀ g ∈ m.groups, g.files.length = g.selected.length) :
    (allSelectedFiles m = [] → handleDeleteCommand m = m) ∧
    (allSelectedFiles m ≠ [] → handleDeleteCommand m =
      { m with pendingDeletion := allSelectedFiles m,
               confirmingDeletion := true }) ∧
    ∀ f, f ∈ allSelectedFiles m ↔
      ∃ g ∈ m.groups, ∃ i, i < g.files.length ∧
        g.files.getD i "" = f ∧ g.selected.getD i false = true := by
  refine ⟨?_, ?_, ?_⟩
  · intro h
    unfold handleDeleteCommand
    rw [if_pos h]
  · intro h
    unfold handleDeleteCommand
    rw [if_neg h]
  · intro f
    unfold allSelectedFiles
    rw [List.mem_flatten]
    constructor
    · rintro ⟨l, hl, hfl⟩
      obtain ⟨g, hg, rfl⟩ := List.mem_map.mp hl
      exact ⟨g, hg, (zip_filterMap_mem f g.files g.selected (hlen g hg)).mp hfl⟩
    · rintro ⟨g, hg, hi⟩
      exact ⟨selectedIn g, List.mem_map_of_mem _ hg,
        (zip_filterMap_mem f _ _ (hlen g hg)).mpr hi⟩

/-- Witness for `c9_request_delete`: an empty selection is a no-op. -/
theorem c9_request_delete_witness :
    handleDeleteCommand sampleModelNoSelection = sampleModelNoSelection :=
  (c9_request_delete sampleModelNoSelection (by decide)).1 (by decide)

/-- Unfolding lemma for one step of the deletion loop. -/
theorem executeDeleteCommand_cons (fs : List String) (p : String)
    (rest : List String) :
    executeDeleteCommand fs (p :: rest) =
      match osRemove fs p with
      | none => (fs, ⟨p, false, some ("remove " ++ p)⟩)
      | some fs' => executeDeleteCommand fs' rest := rfl

/-- C2: deleting the pending batch removes a prefix of the batch in
order: either the whole batch succeeds and the success sentinel (empty
path, `success = true`) is reported, or the first failing path is
reported with `success = false` and an error, the earlier removals stay
applied, and the remainder is never attempted.  In either outcome
`handleDeletionComplete` clears the pending batch.  The concrete
three-file scenario from the spec is included: with `b` missing from the
filesystem, `a` is removed, the report names `b`, and `c` is untouched. -/
theorem c2_confirm_deletion :
    (∀ (fs pending : List String),
      ∃ k, k ≤ pending.length ∧
        (executeDeleteCommand fs pending).1 =
          List.foldl List.erase fs (pending.take k) ∧
        ((k = pending.length ∧
           (executeDeleteCommand fs pending).2 =
             ⟨"", true, none⟩) ∨
         (k < pending.length ∧
           (executeDeleteCommand fs pending).2.filePath = pending.getD k "" ∧
           (executeDeleteCommand fs pending).2.success = false ∧
           (executeDeleteCommand fs pending).2.error ≠ none ∧
           pending.getD k "" ∉
             List.foldl List.erase fs (pending.take k)))) ∧
    (∀ (m : DuplicatesModel) (msg : DeletionCompleteMsg),
      (handleDeletionComplete m msg).pendingDeletion = []) ∧
    executeDeleteCommand ["a", "c"] ["a", "b", "c"]
      = (["c"], ⟨"b", false, some "remove b"⟩) := by
  refine ⟨?_, ?_, by decide⟩
  · intro fs pending
    induction pending generalizing fs with
    | nil => exact ⟨0, Nat.le_refl _, rfl, Or.inl ⟨rfl, rfl⟩⟩
    | cons p rest ih =>
      by_cases hp : p ∈ fs
      · have hos : osRemove fs p = some (fs.erase p) := by
          unfold osRemove
          rw [if_pos hp]
        have hexec : executeDeleteCommand fs (p :: rest) =
            executeDeleteCommand (fs.erase p) rest := by
          rw [executeDeleteCommand_cons, hos]
        obtain ⟨k, hk, h1, h2⟩ := ih (fs.erase p)
        refine ⟨k + 1, by simpa using Nat.succ_le_succ hk, ?_, ?_⟩
        · rw [hexec, h1, List.take_succ_cons, List.foldl_cons]
        · rcases h2 with ⟨hEq, hmsg⟩ | ⟨hlt, hfp, hsucc, herr, hnot⟩
          · exact Or.inl ⟨by simp [hEq], by rw [hexec]; exact hmsg⟩
          · refine Or.inr ⟨by simpa using Nat.succ_lt_succ hlt, ?_, ?_, ?_, ?_⟩
            · rw [hexec, List.getD_cons_succ]
              exact hfp
            · rw [hexec]
              exact hsucc
            · rw [hexec]
              exact herr
            · rw [List.getD_cons_succ, List.take_succ_cons, List.foldl_cons]
              exact hnot
      · have hos : osRemove fs p = none := by
          unfold osRemove
          rw [if_neg hp]
        have hexec : executeDeleteCommand fs (p :: rest) =
            (fs, ⟨p, false, some ("remove " ++ p)⟩) := by
          rw [executeDeleteCommand_cons, hos]
        refine ⟨0, Nat.zero_le _, by rw [hexec]; rfl, Or.inr ⟨by simp, ?_, ?_, ?_, ?_⟩⟩
        · rw [hexec]
          rfl
        · rw [hexec]
        · rw [hexec]
          simp
        · simpa using hp
  · intro m msg
    unfold handleDeletionComplete reindexAfterDeletion
    split_ifs with h h2 <;> rfl

theorem removeLoop_eq (d : List Nat) :
    ∀ (gs : List DuplicateGroup) (cg : Nat),
      removeLoop d (gs, cg) = (eraseFold d gs, cgFold d cg) := by
  induction d with
  | nil => intro gs cg; rfl
  | cons i rest ih =>
    intro gs cg
    show removeLoop rest _ = _
    rw [ih]
    rfl

theorem cgFold_desc :
    ∀ (d : List Nat), List.Pairwise (· > ·) d → ∀ c,
      cgFold d c = c - (d.filter (fun i => i ≤ c)).length := by
  intro d
  induction d with
  | nil => intro _ c; simp [cgFold]
  | cons i rest ih =>
    intro hp c
    rw [List.pairwise_cons] at hp
    obtain ⟨hgt, hrest⟩ := hp
    unfold cgFold
    by_cases hic : i ≤ c
    · by_cases hc0 : 0 < c
      · rw [if_pos hic, if_pos hc0, ih hrest (c - 1)]
        have hall1 : rest.filter (fun j => j ≤ c - 1) = rest :=
          List.filter_eq_self.mpr (fun j hj => by
            have := hgt j hj
            simp only [decide_eq_true_eq]
            omega)
        have hall2 : rest.filter (fun j => j ≤ c) = rest :=
          List.filter_eq_self.mpr (fun j hj => by
            have := hgt j hj
            simp only [decide_eq_true_eq]
            omega)
        rw [hall1, List.filter_cons, if_pos (by simpa using hic), hall2]
        simp only [List.length_cons]
        omega
      · rw [if_pos hic, if_neg hc0, ih hrest c]
        omega
    · rw [if_neg hic, ih hrest c, List.filter_cons,
        if_neg (by simpa using hic)]

theorem groupsToRemove_sorted (gs : List DuplicateGroup) :
    List.Pairwise (· > ·) (groupsToRemove gs).reverse := by
  rw [List.pairwise_reverse]
  exact List.Pairwise.filter _ (List.pairwise_lt_range _)

theorem groupsToRemove_bounds (gs : List DuplicateGroup) :
    ∀ i ∈ groupsToRemove gs, i < gs.length := by
  intro i hi
  have := List.mem_of_mem_filter hi
  exact List.mem_range.mp this

theorem erase_at_append_length (init : List DuplicateGroup)
    (g : DuplicateGroup) :
    (init ++ [g]).eraseIdx init.length = init := by
  induction init with
  | nil => rfl
  | cons a t ih =>
    simp only [List.cons_append, List.length_cons, List.eraseIdx_cons_succ]
    rw [ih]

theorem eraseFold_append_last :
    ∀ (d : List Nat) (init : List DuplicateGroup) (g : DuplicateGroup),
      List.Pairwise (· > ·) d → (∀ i ∈ d, i < init.length) →
      eraseFold d (init ++ [g]) = eraseFold d init ++ [g] := by
  intro d
  induction d with
  | nil => intro init g _ _; rfl
  | cons i rest ih =>
    intro init g hp hb
    rw [List.pairwise_cons] at hp
    obtain ⟨hgt, hrest⟩ := hp
    have hi : i < init.length := hb i (List.mem_cons_self _ _)
    show eraseFold rest ((init ++ [g]).eraseIdx i) = _
    rw [List.eraseIdx_append_of_lt_length hi]
    rw [ih (init.eraseIdx i) g hrest ?_]
    · rfl
    · intro j hj
      have hji : j < i := hgt j hj
      rw [List.length_eraseIdx_of_lt hi]
      omega

theorem groupsToRemove_append (init : List DuplicateGroup)
    (g : DuplicateGroup) :
    groupsToRemove (init ++ [g]) =
      groupsToRemove init ++
        (if g.files.length ≤ 1 then [init.length] else []) := by
  unfold groupsToRemove
  rw [List.length_append]
  show (List.range (init.length + 1)).filter _ = _
  rw [List.range_succ, List.filter_append]
  congr 1
  · apply List.filter_congr
    intro i hi
    rw [List.getD_append _ _ _ _ (List.mem_range.mp hi)]
  · have hg : (init ++ [g]).getD init.length default = g := by
      rw [List.getD_append_right _ _ _ _ (Nat.le_refl _)]
      simp
    rw [List.filter_cons, hg]
    by_cases h1 : g.files.length ≤ 1
    · rw [if_pos (by simpa using h1), if_pos h1]
      rfl
    · rw [if_neg (by simpa using h1), if_neg h1]
      rfl

theorem eraseFold_filter (gs : List DuplicateGroup) :
    eraseFold (groupsToRemove gs).reverse gs =
      gs.filter (fun g => 1 < g.files.length) := by
  induction gs using List.reverseRecOn with
  | nil => rfl
  | append_singleton init g ih =>
    rw [groupsToRemove_append]
    by_cases hg : g.files.length ≤ 1
    · rw [if_pos hg, List.reverse_append]
      show eraseFold (groupsToRemove init).reverse
        ((init ++ [g]).eraseIdx init.length) = _
      rw [erase_at_append_length, ih, List.filter_append]
      have : [g].filter (fun g => 1 < g.files.length) = [] := by
        rw [List.filter_cons, if_neg (by simpa using Nat.not_lt.mpr hg)]
        rfl
      rw [this, List.append_nil]
    · rw [if_neg hg, List.append_nil]
      rw [eraseFold_append_last _ init g (groupsToRemove_sorted init)
        (fun i hi => groupsToRemove_bounds init i (by simpa using hi))]
      rw [ih, List.filter_append]
      have : [g].filter (fun g => 1 < g.files.length) = [g] := by
        rw [List.filter_cons, if_pos (by simpa using Nat.not_le.mp hg)]
        rfl
      rw [this]

theorem siftPairs_spec (P : List String) :
    ∀ (fs : List String) (bs : List Bool), fs.length = bs.length →
      (siftPairs P (fs.zip bs)).1.map Prod.fst =
        fs.filter (fun f => !(P.contains f)) ∧
      (siftPairs P (fs.zip bs)).2 = fs.filter (fun f => P.contains f) := by
  intro fs
  induction fs with
  | nil => exact fun bs _ => ⟨rfl, rfl⟩
  | cons f fs' ih =>
    intro bs h
    cases bs with
    | nil => simp at h
    | cons b bs' =>
      simp only [List.length_cons, Nat.add_right_cancel_iff] at h
      obtain ⟨ih1, ih2⟩ := ih bs' h
      rw [List.zip_cons_cons]
      by_cases hf : P.contains f = true
      · have hmem : f ∈ P := by simpa using hf
        have hstep : siftPairs P ((f, b) :: fs'.zip bs') =
            ((siftPairs P (fs'.zip bs')).1,
             f :: (siftPairs P (fs'.zip bs')).2) := by
          simp [siftPairs, hmem]
        rw [hstep]
        constructor
        · rw [ih1, List.filter_cons, if_neg (by simpa using hf)]
        · rw [show ((siftPairs P (fs'.zip bs')).1,
              f :: (siftPairs P (fs'.zip bs')).2).2 =
              f :: (siftPairs P (fs'.zip bs')).2 from rfl,
            ih2, List.filter_cons, if_pos (by simpa using hf)]
      · have hf' : P.contains f = false := by simpa using hf
        have hmem : f ∉ P := by simpa using hf'
        have hstep : siftPairs P ((f, b) :: fs'.zip bs') =
            ((f, b) :: (siftPairs P (fs'.zip bs')).1,
             (siftPairs P (fs'.zip bs')).2) := by
          simp [siftPairs, hmem]
        rw [hstep]
        constructor
        · rw [show ((f, b) :: (siftPairs P (fs'.zip bs')).1,
              (siftPairs P (fs'.zip bs')).2).1 =
              (f, b) :: (siftPairs P (fs'.zip bs')).1 from rfl,
            List.map_cons, ih1, List.filter_cons, if_pos (by simpa using hf')]
        · rw [show ((f, b) :: (siftPairs P (fs'.zip bs')).1,
              (siftPairs P (fs'.zip bs')).2).2 =
              (siftPairs P (fs'.zip bs')).2 from rfl,
            ih2, List.filter_cons, if_neg (by simpa using hf')]

theorem siftGroup_spec (P : List String) (g : DuplicateGroup)
    (hg : g.files.length = g.selected.length) :
    (siftGroup P g).files = g.files.filter (fun f => !(P.contains f)) ∧
    (siftGroup P g).deletedFiles =
      g.deletedFiles ++ g.files.filter (fun f => P.contains f) ∧
    (siftGroup P g).files.length = (siftGroup P g).selected.length := by
  obtain ⟨h1, h2⟩ := siftPairs_spec P g.files g.selected hg
  exact ⟨h1, by rw [siftGroup, h2], by simp [siftGroup]⟩

/-- C1: after the success sentinel, every group drops exactly the paths
of the executed batch (each appended to that group's `deletedFiles`)
together with the matching selection slots, keeping `files`/`selected`
of equal length; the groups left with at most one file are removed,
survivors keeping their relative order; the pending batch is cleared;
if no group remains the machine quits; otherwise the group cursor is
the old cursor decremented once per removed group at or before it,
clamped to the valid range, and the file cursor is clamped into the
current group. -/
theorem c1_post_deletion_reindex (m : DuplicatesModel)
    (hlen : ∀ g ∈ m.groups, g.files.length = g.selected.length) :
    (∀ g ∈ m.groups,
      (siftGroup m.pendingDeletion g).files =
        g.files.filter (fun f => !(m.pendingDeletion.contains f)) ∧
      (siftGroup m.pendingDeletion g).deletedFiles =
        g.deletedFiles ++
          g.files.filter (fun f => m.pendingDeletion.contains f) ∧
      (siftGroup m.pendingDeletion g).files.length =
        (siftGroup m.pendingDeletion g).selected.length) ∧
    (handleDeletionComplete m ⟨"", true, none⟩).groups =
      (siftedGroups m).filter (fun g => 1 < g.files.length) ∧
    (handleDeletionComplete m ⟨"", true, none⟩).pendingDeletion = [] ∧
    ((handleDeletionComplete m ⟨"", true, none⟩).groups = [] →
      (handleDeletionComplete m ⟨"", true, none⟩).quitting = true) ∧
    ((handleDeletionComplete m ⟨"", true, none⟩).groups ≠ [] →
      (handleDeletionComplete m ⟨"", true, none⟩).currentGroup =
        min (m.currentGroup -
            ((groupsToRemove (siftedGroups m)).filter
              (fun i => i ≤ m.currentGroup)).length)
          ((handleDeletionComplete m ⟨"", true, none⟩).groups.length - 1) ∧
      (handleDeletionComplete m ⟨"", true, none⟩).currentFile =
        min m.currentFile
          (((handleDeletionComplete m ⟨"", true, none⟩).groups.getD
              (handleDeletionComplete m ⟨"", true, none⟩).currentGroup
              default).files.length - 1)) := by
  have hsent : handleDeletionComplete m ⟨"", true, none⟩ =
      reindexAfterDeletion m := rfl
  have hng : newGroups m =
      (siftedGroups m).filter (fun g => 1 < g.files.length) := by
    unfold newGroups
    rw [removeLoop_eq]
    exact eraseFold_filter (siftedGroups m)
  have hnc : newCursor m = m.currentGroup -
      ((groupsToRemove (siftedGroups m)).filter
        (fun i => i ≤ m.currentGroup)).length := by
    unfold newCursor
    rw [removeLoop_eq]
    show cgFold _ _ = _
    rw [cgFold_desc _ (groupsToRemove_sorted (siftedGroups m)) _,
      List.filter_reverse, List.length_reverse]
  refine ⟨?_, ?_, ?_, ?_, ?_⟩
  · intro g hg
    exact siftGroup_spec m.pendingDeletion g (hlen g hg)
  · rw [hsent]
    unfold reindexAfterDeletion
    split_ifs <;> simpa using hng
  · rw [hsent]
    unfold reindexAfterDeletion
    split_ifs <;> rfl
  · rw [hsent]
    unfold reindexAfterDeletion
    split_ifs with hempty
    · intro _
      rfl
    · intro habs
      exfalso
      have habs' : newGroups m = [] := habs
      exact hempty (by simp [habs'])
  · rw [hsent]
    intro hne
    have hempty : (newGroups m).isEmpty = false := by
      rw [show (reindexAfterDeletion m).groups = newGroups m by
        unfold reindexAfterDeletion; split_ifs <;> rfl] at hne
      simpa [List.isEmpty_iff] using hne
    have hres : reindexAfterDeletion m =
        { m with groups := newGroups m, currentGroup := clampedCursor m,
                 currentFile := clampedFile m, pendingDeletion := [] } := by
      unfold reindexAfterDeletion
      rw [if_neg (by simp [hempty])]
    rw [hres]
    have hpos : 0 < (newGroups m).length := by
      cases hgg : newGroups m with
      | nil => rw [hgg] at hempty; simp at hempty
      | cons a t => simp
    constructor
    · show clampedCursor m =
        min (m.currentGroup -
            ((groupsToRemove (siftedGroups m)).filter
              (fun i => i ≤ m.currentGroup)).length)
          ((newGroups m).length - 1)
      unfold clampedCursor
      rw [hnc, Nat.min_def]
      split_ifs <;> omega
    · show clampedFile m =
        min m.currentFile
          (((newGroups m).getD (clampedCursor m) default).files.length - 1)
      unfold clampedFile
      rw [Nat.min_def]
      split_ifs <;> omega

/-- Witness for `c1_post_deletion_reindex` at the spec's cross-group
example. -/
theorem c1_post_deletion_reindex_witness :
    (handleDeletionComplete sampleModelCrossGroup ⟨"", true, none⟩).groups =
      (siftedGroups sampleModelCrossGroup).filter
        (fun g => 1 < g.files.length) :=
  (c1_post_deletion_reindex sampleModelCrossGroup (by decide)).2.1

/-- C10 (refuting the safety claim; the code is the bug): on a fully
successful run the core renames the file, yet `ProcessVideoFile` then
stats the *pre-rename* path, which no longer exists, ignores the error
and dereferences the nil `FileInfo` — the inner `none` below.  The
claim's intended property (no invalid dereference) fails on every
successfully processed file. -/
theorem c10_nil_fileinfo_after_rename :
    (processVideoFileCore sampleWorld "video.mp4").2.wasRenamed = true ∧
    (processVideoFileCore sampleWorld "video.mp4").2.error = none ∧
    processVideoFileStat sampleWorld "video.mp4" = some none :=
  ⟨rfl, rfl, rfl⟩

example : isProcessed "video_[1920x1080][30min][AABBCCDD].mp4" = true := by decide
example : isProcessed "video_[1920x1080].mp4" = false := by decide
example : extractHashFromFilename "Show[S02E03][HD]_[3840x2160][30min][FEDCBA98].webm"
    = some "FEDCBA98" := by decide
example : isVideoFile "a/b/video.MP4" = true := by decide
example : isVideoFile "a/b/video.txt" = false := by decide
example : generateTaggedFilename "dir/video.mp4" ⟨"1920x1080", 30⟩ 0xDEADBEEF
    = "dir/video_[1920x1080][30min][DEADBEEF].mp4" := by decide

/-- Witness for `c4_extractHash_gate_and_lastBracket`: its two
hypothesis-bearing parts at concrete filenames. -/
theorem c4_extractHash_gate_and_lastBracket_witness :
    extractHashFromFilename "plain.mp4" = none ∧
    ∃ h, extractHashFromFilename "a_[1x1][2min][AABBCCDD].mp4"
        = some (String.mk h) ∧
      IsLastHexBracket "a_[1x1][2min][AABBCCDD].mp4".data h :=
  ⟨c4_extractHash_gate_and_lastBracket.1 "plain.mp4" (by decide),
   c4_extractHash_gate_and_lastBracket.2.1 "a_[1x1][2min][AABBCCDD].mp4"
     (by decide)⟩

end VideoTagger
